import Mathlib

/-!
Verification of the core of the Go-Distribute-Cache repository (a GroupCache-style
distributed cache): the bounded LRU store (src/cache/lru/lru.go), the
consistent-hash ring (src/cache/consistenthash/consistenthash.go), the
single-flight coalescer (src/cache/singleflight/singleflight.go) and the Group
coordinator (src/cache/geecache.go), shallowly embedded in Lean.

Modelling conventions:
  * Go byte slices are `List Nat`; Go strings are Lean `String`.
  * Go `int64`/`int` arithmetic is modelled with `Int`/`Nat` (the quantities
    involved are byte counts and 32-bit hash values, far from the 2^63 wrap,
    so overflow is immaterial); `uint32` values are reduced `% 4294967296`.
  * The doubly linked list of the LRU is a Lean list with the FRONT being the
    most-recently-used end (Go `PushFront`/`MoveToFront`/`Back`).
  * The eviction callback `OnEvicted` is modelled observably: mutators return
    the list of evicted `(key, value)` pairs, in eviction order.
  * The possibly unbounded eviction loop of `Cache.Add` is modelled with
    explicit fuel; `none` stands for non-termination of the loop, which is
    genuine divergence (shown by separate lemmas).
-/

namespace GoCache

/-! ## LRU store (src/cache/lru/lru.go) -/

/-- The `lru.Cache` struct.  `ll` is the recency list, front = most recently
used; the Go hash index `cache map[string]*list.Element` is represented by key
lookup in `ll` (its key set; invariant: keys are distinct). -/
structure LruCache (V : Type) where
  maxBytes : Int
  nbytes : Int
  ll : List (String × V)
deriving DecidableEq

/-- `lru.New`: empty list, zero byte total. -/
def lruNew (V : Type) (maxBytes : Int) : LruCache V := ⟨maxBytes, 0, []⟩

/-- Cost that one entry contributes to the byte total:
`len(key) + value.Len()`. -/
def entryCost {V : Type} (vLen : V → Nat) (e : String × V) : Int :=
  (e.1.length : Int) + (vLen e.2 : Int)

/-- Sum of `entryCost` over a recency list. -/
def totalCost {V : Type} (vLen : V → Nat) (ll : List (String × V)) : Int :=
  (ll.map (entryCost vLen)).sum

/-- The insertion step of `Cache.Add` (before the eviction loop):
on an existing key, `MoveToFront` + update value in place + adjust `nbytes`
by `value.Len() - old.Len()`; on a new key, `PushFront` + add
`len(key) + value.Len()`. -/
def lruAddInsert {V : Type} (vLen : V → Nat) (c : LruCache V)
    (key : String) (value : V) : LruCache V :=
  match c.ll.find? (fun e => e.1 == key) with
  | some kv =>
      { c with
        ll := (key, value) :: c.ll.eraseP (fun e => e.1 == key),
        nbytes := c.nbytes + (vLen value : Int) - (vLen kv.2 : Int) }
  | none =>
      { c with
        ll := (key, value) :: c.ll,
        nbytes := c.nbytes + (key.length : Int) + (vLen value : Int) }

/-- `Cache.RemoveOldest`: drop the back (least-recent) element if any,
subtract its cost, and report it (the `OnEvicted` invocation). -/
def removeOldest {V : Type} (vLen : V → Nat) (c : LruCache V) :
    LruCache V × Option (String × V) :=
  match c.ll.getLast? with
  | none => (c, none)
  | some e =>
      ({ c with ll := c.ll.dropLast,
                nbytes := c.nbytes - entryCost vLen e }, some e)

/-- The eviction loop of `Cache.Add`:
`for c.maxBytes != 0 && c.maxBytes < c.nbytes { c.RemoveOldest() }`,
with explicit fuel; `none` means the fuel ran out with the loop guard still
true.  `acc` accumulates evicted entries in reverse order. -/
def evictLoop {V : Type} (vLen : V → Nat) :
    Nat → LruCache V → List (String × V) → Option (LruCache V × List (String × V))
  | 0, c, acc =>
      if c.maxBytes ≠ 0 ∧ c.maxBytes < c.nbytes then none else some (c, acc.reverse)
  | fuel + 1, c, acc =>
      if c.maxBytes ≠ 0 ∧ c.maxBytes < c.nbytes then
        match removeOldest vLen c with
        | (c', some e) => evictLoop vLen fuel c' (e :: acc)
        | (c', none) => evictLoop vLen fuel c' acc
      else some (c, acc.reverse)

/-- `Cache.Add`: insertion step followed by the eviction loop.  The fuel
`ll.length + 1` is enough to either finish the loop or reach the state in
which the Go loop provably spins forever (empty list with the guard still
true); in the latter case the result is `none`. -/
def lruAdd {V : Type} (vLen : V → Nat) (c : LruCache V)
    (key : String) (value : V) : Option (LruCache V × List (String × V)) :=
  let c1 := lruAddInsert vLen c key value
  evictLoop vLen (c1.ll.length + 1) c1 []

/-- `Cache.Get`: on hit, `MoveToFront` and return the value; on miss, return
the absent signal without mutation. -/
def lruGet {V : Type} (c : LruCache V) (key : String) :
    Option V × LruCache V :=
  match c.ll.find? (fun e => e.1 == key) with
  | some kv =>
      (some kv.2, { c with ll := (kv.1, kv.2) :: c.ll.eraseP (fun e => e.1 == key) })
  | none => (none, c)

/-- `Cache.Len`: the recency-list length. -/
def lruLen {V : Type} (c : LruCache V) : Nat := c.ll.length

/-- Invariant (I1): the running byte total equals the sum of entry costs. -/
def NbytesInv {V : Type} (vLen : V → Nat) (c : LruCache V) : Prop :=
  c.nbytes = totalCost vLen c.ll

/-- Keys of the recency list are pairwise distinct (the hash index maps each
key to exactly one list element). -/
def KeysNodup {V : Type} (c : LruCache V) : Prop :=
  (c.ll.map Prod.fst).Nodup

/-- Well-formedness of an LRU state: (I1) plus distinct keys. -/
def LruWF {V : Type} (vLen : V → Nat) (c : LruCache V) : Prop :=
  NbytesInv vLen c ∧ KeysNodup c

instance {V : Type} [DecidableEq V] (vLen : V → Nat) (c : LruCache V) :
    Decidable (NbytesInv vLen c) := by unfold NbytesInv; infer_instance

instance {V : Type} (c : LruCache V) : Decidable (KeysNodup c) := by
  unfold KeysNodup; infer_instance

instance {V : Type} [DecidableEq V] (vLen : V → Nat) (c : LruCache V) :
    Decidable (LruWF vLen c) := by unfold LruWF; infer_instance

/-- The three mutating/observing operations of `lru.Cache`. -/
inductive LruOp (V : Type) where
  | add (key : String) (value : V)
  | get (key : String)
  | removeOldest

/-- One operation applied to a state; `none` when the eviction loop of `Add`
does not terminate. -/
def lruApply {V : Type} (vLen : V → Nat) (c : LruCache V) :
    LruOp V → Option (LruCache V)
  | .add k v => (lruAdd vLen c k v).map Prod.fst
  | .get k => some (lruGet c k).2
  | .removeOldest => some (removeOldest vLen c).1

/-- A whole operation sequence run from `New maxBytes`. -/
def lruRun {V : Type} (vLen : V → Nat) (maxBytes : Int) (ops : List (LruOp V)) :
    Option (LruCache V) :=
  ops.foldlM (lruApply vLen) (lruNew V maxBytes)

/-! ## Consistent-hash ring (src/cache/consistenthash/consistenthash.go) -/

/-- The `consistenthash.Map` struct.  `hash` is the injected hash function
(`Hash func([]byte) uint32`): an arbitrary function on strings whose result
the Go type confines to 32 bits, which the model enforces by reducing
`% 2^32` at every call site.  `keys` is the hash ring (a slice of `int`),
`hashMap` the hash-to-peer Go map, modelled as an association list with
overwrite-on-insert (`upsert`). -/
structure HashRing where
  hash : String → Nat
  replicas : Nat
  keys : List Nat
  hashMap : List (Nat × String)

/-- `consistenthash.New` (the CRC32 default for a nil function is outside the
model: the hash function is always supplied explicitly). -/
def ringNew (replicas : Nat) (fn : String → Nat) : HashRing :=
  ⟨fn, replicas, [], []⟩

/-- Go map assignment `m[h] = p`: overwrite if present, append otherwise. -/
def upsert : List (Nat × String) → Nat → String → List (Nat × String)
  | [], h, p => [(h, p)]
  | (h', p') :: t, h, p =>
      if h' = h then (h, p) :: t else (h', p') :: upsert t h p

/-- Go map read `m[h]` (as an `Option`; the missing-key zero value `""` is
applied at the use site in `ringGet`). -/
def mapLookup (l : List (Nat × String)) (h : Nat) : Option String :=
  (l.find? (fun e => e.1 == h)).map Prod.snd

/-- The virtual-node hash of replica `i` of `peer`:
`int(m.hash([]byte(strconv.Itoa(i) + key)))`. -/
def virtualHash (fn : String → Nat) (i : Nat) (peer : String) : Nat :=
  fn (toString i ++ peer) % 4294967296

/-- The inner loop of `Map.Add` for one peer: append the `replicas` virtual
hashes to the ring and map each to the peer. -/
def addVirtualNodes (m : HashRing) (peer : String) : HashRing :=
  (List.range m.replicas).foldl
    (fun acc i =>
      let h := virtualHash acc.hash i peer
      { acc with keys := acc.keys ++ [h], hashMap := upsert acc.hashMap h peer })
    m

/-- `Map.Add(keys ...string)`: add all peers' virtual nodes, then sort the
ring (`sort.Ints`). -/
def ringAdd (m : HashRing) (peers : List String) : HashRing :=
  let m' := peers.foldl addVirtualNodes m
  { m' with keys := m'.keys.insertionSort (· ≤ ·) }

/-- The index `sort.Search(len(m.keys), func(i) { return m.keys[i] >= hash })`
computes on a sorted array: the first index whose element is `≥ h`
(`length` when there is none). -/
def searchGE (keys : List Nat) (h : Nat) : Nat :=
  keys.findIdx (fun x => decide (h ≤ x))

/-- The ring slot `Map.Get` selects for a key (before the map lookup):
`m.keys[idx % len(m.keys)]`. -/
def selHash (m : HashRing) (key : String) : Nat :=
  let h := m.hash key % 4294967296
  m.keys.getD (searchGE m.keys h % m.keys.length) 0

/-- `Map.Get`: empty ring yields `""`; otherwise binary-search the first
virtual node with hash `≥ hash(key)`, wrap to index 0 via `% len`, and read
the Go map (zero value `""` when the entry is missing). -/
def ringGet (m : HashRing) (key : String) : String :=
  if m.keys = [] then ""
  else (mapLookup m.hashMap (selHash m key)).getD ""

/-- One iteration of `Map.Remove`: `idx := sort.SearchInts(m.keys, hash)`,
then `m.keys = append(m.keys[:idx], m.keys[idx+1:]...)` — which panics with a
slice-bounds violation when `idx = len(m.keys)` (`none` in the model) — and
`delete(m.hashMap, hash)`. -/
def removeStep (m : HashRing) (h : Nat) : Option HashRing :=
  let idx := searchGE m.keys h
  if idx < m.keys.length then
    some { m with keys := m.keys.eraseIdx idx,
                  hashMap := m.hashMap.filter (fun e => !(e.1 == h)) }
  else none

/-- The `replicas` virtual-node hashes of a peer, in replica order. -/
def peerHashes (m : HashRing) (peer : String) : List Nat :=
  (List.range m.replicas).map (fun i => virtualHash m.hash i peer)

/-- `Map.Remove(key string)`: remove the peer's `replicas` virtual hashes one
by one; `none` when some iteration panics. -/
def ringRemove (m : HashRing) (peer : String) : Option HashRing :=
  (peerHashes m peer).foldlM removeStep m

/-- A small concrete ring (replica count 1, string-length hash, one peer)
used as a test input. -/
def ringW : HashRing := ringAdd (ringNew 1 (fun s => s.length)) ["aa"]

/-- A concrete ring with a forced virtual-node collision: a constant hash
function and two peers added one after the other. -/
def constHashRing : HashRing :=
  ringAdd (ringAdd (ringNew 1 (fun _ => 7)) ["A"]) ["B"]

/-- The ring states reachable through the public constructors/mutators. -/
inductive RingReachable : HashRing → Prop where
  | new : ∀ (replicas : Nat) (fn : String → Nat), RingReachable (ringNew replicas fn)
  | add : ∀ m peers, RingReachable m → RingReachable (ringAdd m peers)
  | remove : ∀ m peer m', RingReachable m → ringRemove m peer = some m' →
      RingReachable m'

/-! ## ByteView and the Group coordinator (src/cache/geecache.go and the
byteview source) -/

/-- `ByteView`: immutable wrapper over a byte slice (bytes as `List Nat`). -/
structure ByteView where
  b : List Nat
deriving DecidableEq

/-- `ByteView.Len()`. -/
def ByteView.len (v : ByteView) : Nat := v.b.length

/-- `cloneBytes`: a defensive copy; aliasing is outside the model, so the
copy has the same contents. -/
def cloneBytes (b : List Nat) : List Nat := b

/-- The `PeerGetter` interface: `Get(in *pb.Request, out *pb.Response) error`,
i.e. `(group, key) ↦ value bytes` or an error. -/
structure PeerGetter where
  get : String → String → Except String (List Nat)

/-- The `Group` struct.  The `getter` field is the origin loader
(`Getter.Get: key ↦ ([]byte, error)`); `peers` is the optional `PeerPicker`
(`PickPeer(key) → (PeerGetter, ok)`, with `ok = false` as `none`); the
single-flight `loader` carries no state that matters to a sequential
caller. -/
structure GroupModel where
  name : String
  getter : String → Except String (List Nat)
  mainCache : LruCache ByteView
  peers : Option (String → Option PeerGetter)

/-- Modelled from the spec: the `cache` wrapper around the LRU store (its Go
source file — a mutex plus a lazily created `lru.Cache` with the group's
`cacheBytes` — is not among the provided sources; only `geecache.go` calls
it).  Per spec §4.E/§5, a probe takes the lock, hits the LRU and touches
recency; sequentially the mutex is invisible and an empty LRU is
indistinguishable from the nil, not-yet-created one. -/
def cacheGet (c : LruCache ByteView) (key : String) :
    Option ByteView × LruCache ByteView :=
  lruGet c key

/-- Modelled from the spec: insertion through the `cache` wrapper (see
`cacheGet`): delegates to `lru.Add` under the lock with the group's byte
budget. -/
def cacheAdd (c : LruCache ByteView) (key : String) (value : ByteView) :
    Option (LruCache ByteView × List (String × ByteView)) :=
  lruAdd ByteView.len c key value

/-- `Group.getFromPeer`: send the protobuf request to the remote peer and
wrap the response bytes in a `ByteView`. -/
def getFromPeer (g : GroupModel) (peer : PeerGetter) (key : String) :
    Except String ByteView :=
  match peer.get g.name key with
  | .error e => .error e
  | .ok bytes => .ok ⟨bytes⟩

/-- `Group.getLocally`: invoke the origin loader; on failure propagate the
error; on success clone the bytes, populate the local cache
(`populateCache` / `mainCache.add`) and return the value.  `none` when the
LRU insertion diverges (negative budget). -/
def getLocally (g : GroupModel) (key : String) :
    Option (Except String ByteView × GroupModel) :=
  match g.getter key with
  | .error e => some (.error e, g)
  | .ok bytes =>
      match cacheAdd g.mainCache key ⟨cloneBytes bytes⟩ with
      | none => none
      | some (mc, _) => some (.ok ⟨cloneBytes bytes⟩, { g with mainCache := mc })

/-- The closure `Group.load` passes to `loader.Do`: if a peer picker is
installed and picks a remote peer, try it; a peer failure is logged and
swallowed; in every non-success case fall back to `getLocally`. -/
def loadFn (g : GroupModel) (key : String) :
    Option (Except String ByteView × GroupModel) :=
  match g.peers with
  | some picker =>
      match picker key with
      | some peer =>
          match getFromPeer g peer key with
          | .ok v => some (.ok v, g)
          | .error _ => getLocally g key
      | none => getLocally g key
  | none => getLocally g key

/-- `Group.Get`: an empty key fails immediately with `"key is required"`
(before any cache probe); a local-cache hit returns the value (touching
recency); otherwise `load` runs — through `loader.Do`, which for one
sequential caller just invokes the closure (the concurrent behaviour of `Do`
is the single-flight model). -/
def groupGet (g : GroupModel) (key : String) :
    Option (Except String ByteView × GroupModel) :=
  if key = "" then some (.error "key is required", g)
  else
    match cacheGet g.mainCache key with
    | (some v, mc) => some (.ok v, { g with mainCache := mc })
    | (none, _) => loadFn g key

/-- The remote-peer path of one `Get` succeeds: a picker is installed, it
picks a remote peer, and the peer client returns bytes. -/
def PeerServes (g : GroupModel) (key : String) : Prop :=
  ∃ picker peer bytes, g.peers = some picker ∧ picker key = some peer ∧
    peer.get g.name key = Except.ok bytes

/-- A concrete group with no peer picker and a loader that always succeeds. -/
def groupW : GroupModel :=
  ⟨"grp", fun _ => Except.ok [1, 2], lruNew ByteView 10, none⟩

/-- A concrete group whose picker always picks a peer that returns `[7]`. -/
def groupP : GroupModel :=
  ⟨"grp", fun _ => Except.ok [9], lruNew ByteView 10,
    some (fun _ => some ⟨fun _ _ => Except.ok [7]⟩)⟩

/-! ## Single-flight coalescer (src/cache/singleflight/singleflight.go)

An interleaving model of `Group.Do` for one fixed key.  Each caller is a
small state machine mirroring the Go control flow; one atomic transition
corresponds to one mutex-protected section (lookup-or-publish, delete), to
the thunk evaluation together with the `wg.Done` signal, or to the read a
waiter performs once `wg.Wait` returns. -/

/-- The control state of one `Do(key, fn)` caller:

* `ready`: has not yet taken the mutex;
* `running id`: found no record, published record `id`, released the mutex;
  next it calls `fn()`;
* `deleting id v e`: stored `(v, e)` in its record and signalled `wg.Done`;
  next it re-takes the mutex and deletes the map entry;
* `waiting id`: found record `id` in the map and blocks in `wg.Wait()`;
* `done v e`: has returned `(v, e)`. -/
inductive CallerSt where
  | ready
  | running (id : Nat)
  | deleting (id : Nat) (v : Nat) (e : Option String)
  | waiting (id : Nat)
  | done (v : Nat) (e : Option String)
deriving DecidableEq

/-- One `call` record.  Records are heap objects the waiters hold a pointer
to, so the model never reclaims them — deletion only clears the map slot.
`result = none` while the wait group still counts; `creator` is the caller
that published the record. -/
structure CallRec where
  id : Nat
  creator : Nat
  result : Option (Nat × Option String)
deriving DecidableEq

/-- The shared state of `singleflight.Group` for one key, plus all callers.
`slot` is the map entry `g.m[key]` (the id of the record it points to),
`recs` the live records, `nextId` a fresh-id counter, and `invoked` the ghost
trace of callers whose thunk has been invoked (most recent first). -/
structure SFState where
  sts : List CallerSt
  slot : Option Nat
  recs : List CallRec
  nextId : Nat
  invoked : List Nat
deriving DecidableEq

/-- Dereference a record id. -/
def findRec (recs : List CallRec) (id : Nat) : Option CallRec :=
  recs.find? (fun r => r.id == id)

/-- `c.val, c.err = fn()` on the record `id`. -/
def setRecResult (recs : List CallRec) (id : Nat) (p : Nat × Option String) :
    List CallRec :=
  recs.map (fun r => if r.id = id then { r with result := some p } else r)

/-- The transition of caller `i` from control state `st`: one
mutex-protected section, the thunk evaluation with `wg.Done`, or the read
after `wg.Wait` returns.  `thunks` assigns each caller the `(value, error)`
pair its thunk would produce.  `none` when the caller cannot move (blocked
in `wg.Wait`, or already returned). -/
def sfStepAt (thunks : List (Nat × Option String)) (s : SFState) (i : Nat) :
    CallerSt → Option SFState
  | CallerSt.ready =>
      match s.slot with
      | some id => some { s with sts := s.sts.set i (CallerSt.waiting id) }
      | none =>
          some { s with
            sts := s.sts.set i (CallerSt.running s.nextId),
            slot := some s.nextId,
            recs := ⟨s.nextId, i, none⟩ :: s.recs,
            nextId := s.nextId + 1 }
  | CallerSt.running id =>
      match thunks.get? i with
      | none => none
      | some p =>
          some { s with
            sts := s.sts.set i (CallerSt.deleting id p.1 p.2),
            recs := setRecResult s.recs id p,
            invoked := i :: s.invoked }
  | CallerSt.deleting id v e =>
      some { s with sts := s.sts.set i (CallerSt.done v e), slot := none }
  | CallerSt.waiting id =>
      match (findRec s.recs id).bind CallRec.result with
      | some p => some { s with sts := s.sts.set i (CallerSt.done p.1 p.2) }
      | none => none
  | CallerSt.done _ _ => none

/-- One atomic step of caller `i`: dispatch on its control state (`none`
when there is no caller `i`). -/
def sfStep (thunks : List (Nat × Option String)) (s : SFState) (i : Nat) :
    Option SFState :=
  match s.sts.get? i with
  | none => none
  | some st => sfStepAt thunks s i st

/-- Run a schedule: each entry names the caller to step next; an entry whose
caller cannot move is a no-op. -/
def sfRun (thunks : List (Nat × Option String)) : SFState → List Nat → SFState
  | s, [] => s
  | s, i :: rest => sfRun thunks ((sfStep thunks s i).getD s) rest

/-- The initial state: `n` callers about to enter `Do`, empty map, no
records. -/
def sfInit (n : Nat) : SFState :=
  ⟨List.replicate n CallerSt.ready, none, [], 0, []⟩

/-- Caller `i` currently owns record `id` (it is between publishing the
record and deleting the map entry). -/
def Ownerish (sts : List CallerSt) (i id : Nat) : Prop :=
  sts.get? i = some (CallerSt.running id) ∨
  ∃ v e, sts.get? i = some (CallerSt.deleting id v e)

/-- The inductive invariant of the single-flight model. -/
structure SFInv (thunks : List (Nat × Option String)) (s : SFState) : Prop where
  recId : ∀ r ∈ s.recs, r.id < s.nextId
  recIdsNodup : (s.recs.map CallRec.id).Nodup
  recResult : ∀ r ∈ s.recs, ∀ p, r.result = some p → thunks.get? r.creator = some p
  creatorNotReady : ∀ r ∈ s.recs, s.sts.get? r.creator ≠ some CallerSt.ready ∧
    ∀ id', s.sts.get? r.creator ≠ some (CallerSt.waiting id')
  creatorInj : ∀ r ∈ s.recs, ∀ r' ∈ s.recs, r.creator = r'.creator → r.id = r'.id
  ownSlot : ∀ i id, Ownerish s.sts i id → s.slot = some id
  ownRec : ∀ i id, Ownerish s.sts i id → ∃ r ∈ s.recs, r.id = id ∧ r.creator = i
  slotOwn : ∀ id, s.slot = some id → ∃ i, Ownerish s.sts i id
  runningIncomplete : ∀ i id, s.sts.get? i = some (CallerSt.running id) →
    ∃ r ∈ s.recs, r.id = id ∧ r.result = none
  deletingRec : ∀ i id v e, s.sts.get? i = some (CallerSt.deleting id v e) →
    ∃ r ∈ s.recs, r.id = id ∧ r.result = some (v, e) ∧ r.creator = i
  waitingRec : ∀ i id, s.sts.get? i = some (CallerSt.waiting id) →
    ∃ r ∈ s.recs, r.id = id
  doneRec : ∀ i v e, s.sts.get? i = some (CallerSt.done v e) →
    ∃ r ∈ s.recs, r.result = some (v, e)
  invokedNodup : s.invoked.Nodup
  invokedRec : ∀ i ∈ s.invoked, ∃ r ∈ s.recs, r.creator = i ∧ r.result ≠ none
  recInvoked : ∀ r ∈ s.recs, r.result ≠ none → r.creator ∈ s.invoked
  creatorLt : ∀ r ∈ s.recs, r.creator < s.sts.length

/-- A concrete single-flight run: three callers, caller 0 wins, callers 1
and 2 coalesce onto its record and read its result. -/
def sfW : SFState :=
  sfRun [(5, none), (6, none), (7, none)] (sfInit 3) [0, 1, 2, 0, 0, 1, 2]

/-! ### Basic lemmas about the LRU model -/

theorem totalCost_nil {V : Type} (vLen : V → Nat) : totalCost vLen ([] : List (String × V)) = 0 := rfl

theorem totalCost_cons {V : Type} (vLen : V → Nat) (e : String × V) (ll : List (String × V)) :
    totalCost vLen (e :: ll) = entryCost vLen e + totalCost vLen ll := by
  simp [totalCost]

theorem totalCost_append {V : Type} (vLen : V → Nat) (l₁ l₂ : List (String × V)) :
    totalCost vLen (l₁ ++ l₂) = totalCost vLen l₁ + totalCost vLen l₂ := by
  simp [totalCost]

theorem entryCost_nonneg {V : Type} (vLen : V → Nat) (e : String × V) :
    0 ≤ entryCost vLen e := by
  unfold entryCost; positivity

theorem totalCost_nonneg {V : Type} (vLen : V → Nat) (ll : List (String × V)) :
    0 ≤ totalCost vLen ll := by
  induction ll with
  | nil => simp [totalCost]
  | cons e t ih =>
      rw [totalCost_cons]
      have := entryCost_nonneg vLen e
      omega

/-- Decomposition of a successful `find?`: the list splits around the first
match, and `eraseP` removes exactly that element. -/
theorem find?_eraseP_decomp {V : Type} (p : String × V → Bool) :
    ∀ (ll : List (String × V)) (kv : String × V), ll.find? p = some kv →
    ∃ l₁ l₂, (∀ b ∈ l₁, ¬ p b = true) ∧ ll = l₁ ++ kv :: l₂ ∧
      ll.eraseP p = l₁ ++ l₂ := by
  intro ll
  induction ll with
  | nil => intro kv h; simp [List.find?] at h
  | cons e t ih =>
      intro kv h
      by_cases hpe : p e = true
      · rw [List.find?_cons_of_pos _ hpe] at h
        cases h
        exact ⟨[], t, by simp, by simp, by simp [List.eraseP_cons, hpe]⟩
      · rw [List.find?_cons_of_neg _ hpe] at h
        obtain ⟨l₁, l₂, hl₁, heq, herase⟩ := ih kv h
        refine ⟨e :: l₁, l₂, ?_, by simp [heq], by simp [List.eraseP_cons, hpe, herase]⟩
        intro b hb
        rcases List.mem_cons.mp hb with hb | hb
        · subst hb; exact hpe
        · exact hl₁ b hb

/-- The key of the entry found by a key probe is that key. -/
theorem find?_key_eq {V : Type} {ll : List (String × V)} {key : String}
    {kv : String × V} (h : ll.find? (fun e => e.1 == key) = some kv) :
    kv.1 = key := by
  have := List.find?_some h
  simpa using this

/-- `lruAddInsert` preserves (I1). -/
theorem lruAddInsert_nbytes {V : Type} (vLen : V → Nat) (c : LruCache V)
    (key : String) (value : V) (h : NbytesInv vLen c) :
    NbytesInv vLen (lruAddInsert vLen c key value) := by
  unfold NbytesInv at *
  unfold lruAddInsert
  cases hfind : c.ll.find? (fun e => e.1 == key) with
  | none => simp [totalCost_cons, h, entryCost]; ring
  | some kv =>
      obtain ⟨l₁, l₂, _, heq, herase⟩ := find?_eraseP_decomp _ c.ll kv hfind
      have hk : kv.1 = key := find?_key_eq hfind
      rw [herase, h, heq]
      simp only [totalCost_cons, totalCost_append, entryCost, hk]
      ring

/-- `lruAddInsert` preserves distinctness of keys. -/
theorem lruAddInsert_nodup {V : Type} (vLen : V → Nat) (c : LruCache V)
    (key : String) (value : V) (h : KeysNodup c) :
    KeysNodup (lruAddInsert vLen c key value) := by
  unfold KeysNodup at *
  unfold lruAddInsert
  cases hfind : c.ll.find? (fun e => e.1 == key) with
  | none =>
      simp only [List.map_cons, List.nodup_cons]
      refine ⟨?_, h⟩
      intro hmem
      obtain ⟨e, hmem, he⟩ := List.mem_map.mp hmem
      have := List.find?_eq_none.mp hfind e hmem
      simp [he] at this
  | some kv =>
      obtain ⟨l₁, l₂, _, heq, herase⟩ := find?_eraseP_decomp _ c.ll kv hfind
      have hk : kv.1 = key := find?_key_eq hfind
      rw [heq] at h
      simp only [List.map_append, List.map_cons, hk] at h
      have h' := List.nodup_cons.mp (List.nodup_middle.mp h)
      simp only [herase, List.map_cons, List.map_append, List.nodup_cons]
      exact ⟨by simpa using h'.1, by simpa using h'.2⟩

theorem lruAddInsert_wf {V : Type} (vLen : V → Nat) (c : LruCache V)
    (key : String) (value : V) (h : LruWF vLen c) :
    LruWF vLen (lruAddInsert vLen c key value) :=
  ⟨lruAddInsert_nbytes vLen c key value h.1, lruAddInsert_nodup vLen c key value h.2⟩

/-- `removeOldest` preserves (I1). -/
theorem removeOldest_nbytes {V : Type} (vLen : V → Nat) (c : LruCache V)
    (h : NbytesInv vLen c) : NbytesInv vLen (removeOldest vLen c).1 := by
  unfold removeOldest
  cases hlast : c.ll.getLast? with
  | none => exact h
  | some e =>
      have hsplit : c.ll.dropLast ++ [e] = c.ll := List.dropLast_append_getLast? e hlast
      have htc : totalCost vLen c.ll = totalCost vLen c.ll.dropLast + entryCost vLen e := by
        conv_lhs => rw [← hsplit]
        rw [totalCost_append, totalCost_cons, totalCost_nil]
        ring
      unfold NbytesInv at *
      simp only []
      rw [h, htc]
      ring

/-- `removeOldest` preserves distinctness of keys. -/
theorem removeOldest_nodup {V : Type} (vLen : V → Nat) (c : LruCache V)
    (h : KeysNodup c) : KeysNodup (removeOldest vLen c).1 := by
  unfold removeOldest
  cases hlast : c.ll.getLast? with
  | none => exact h
  | some e =>
      unfold KeysNodup at *
      simp only []
      exact h.sublist (List.Sublist.map Prod.fst (List.dropLast_sublist c.ll))

theorem removeOldest_wf {V : Type} (vLen : V → Nat) (c : LruCache V)
    (h : LruWF vLen c) : LruWF vLen (removeOldest vLen c).1 :=
  ⟨removeOldest_nbytes vLen c h.1, removeOldest_nodup vLen c h.2⟩

theorem removeOldest_maxBytes {V : Type} (vLen : V → Nat) (c : LruCache V) :
    (removeOldest vLen c).1.maxBytes = c.maxBytes := by
  unfold removeOldest
  cases c.ll.getLast? <;> rfl

/-- Specification of the eviction loop: when it returns, `maxBytes` is
untouched, the loop guard is false (so `maxBytes = 0` or the total fits),
the evicted entries are exactly the back suffix that was cut off the list
(in back-to-front order, appended to the incoming accumulator), and
well-formedness is preserved. -/
theorem evictLoop_spec {V : Type} (vLen : V → Nat) :
    ∀ (fuel : Nat) (c : LruCache V) (acc : List (String × V))
      (c' : LruCache V) (ev : List (String × V)),
      evictLoop vLen fuel c acc = some (c', ev) →
      c'.maxBytes = c.maxBytes ∧
      (c'.maxBytes = 0 ∨ c'.nbytes ≤ c'.maxBytes) ∧
      ∃ tail, ev = acc.reverse ++ tail ∧ c.ll = c'.ll ++ tail.reverse ∧
        (LruWF vLen c → LruWF vLen c') := by
  intro fuel
  induction fuel with
  | zero =>
      intro c acc c' ev h
      unfold evictLoop at h
      by_cases hc : c.maxBytes ≠ 0 ∧ c.maxBytes < c.nbytes
      · simp [hc] at h
      · simp [hc] at h
        obtain ⟨hc', hev⟩ := h
        subst hc'
        refine ⟨rfl, by omega, [], by simp [hev], by simp, fun hwf => hwf⟩
  | succ n ih =>
      intro c acc c' ev h
      unfold evictLoop at h
      by_cases hc : c.maxBytes ≠ 0 ∧ c.maxBytes < c.nbytes
      · simp only [if_pos hc] at h
        cases hlast : c.ll.getLast? with
        | none =>
            have hro : removeOldest vLen c = (c, none) := by
              unfold removeOldest; rw [hlast]
            rw [hro] at h
            exact ih c acc c' ev h
        | some e =>
            have hro : removeOldest vLen c =
                ({ c with ll := c.ll.dropLast,
                          nbytes := c.nbytes - entryCost vLen e }, some e) := by
              unfold removeOldest; rw [hlast]
            rw [hro] at h
            obtain ⟨hmax, hfit, tail, hev, hll, hwf⟩ := ih _ _ _ _ h
            have hsplit : c.ll.dropLast ++ [e] = c.ll :=
              List.dropLast_append_getLast? e hlast
            refine ⟨hmax, hfit, e :: tail, by simp [hev], ?_, ?_⟩
            · simp only [] at hll
              rw [← hsplit, hll]
              simp
            · intro hwfc
              apply hwf
              have := removeOldest_wf vLen c hwfc
              rw [hro] at this
              exact this
      · simp only [if_neg hc] at h
        cases h
        push_neg at hc
        refine ⟨rfl, ?_, [], by simp, by simp, fun hwf => hwf⟩
        by_cases h0 : c.maxBytes = 0
        · exact Or.inl h0
        · exact Or.inr (hc h0)

/-- With the byte-accounting invariant and a non-negative budget, fuel
`length + 1` always suffices for the eviction loop. -/
theorem evictLoop_total {V : Type} (vLen : V → Nat) :
    ∀ (fuel : Nat) (c : LruCache V) (acc : List (String × V)),
      c.ll.length < fuel → 0 ≤ c.maxBytes → NbytesInv vLen c →
      (evictLoop vLen fuel c acc).isSome := by
  intro fuel
  induction fuel with
  | zero => intro c acc h; omega
  | succ n ih =>
      intro c acc hlen hmax hinv
      unfold evictLoop
      by_cases hc : c.maxBytes ≠ 0 ∧ c.maxBytes < c.nbytes
      · simp only [if_pos hc]
        have hpos : 0 < c.nbytes := by omega
        have hne : c.ll ≠ [] := by
          intro hnil
          rw [hinv, hnil, totalCost_nil] at hpos
          omega
        cases hlast : c.ll.getLast? with
        | none => exact absurd (List.getLast?_eq_none_iff.mp hlast) hne
        | some e =>
            have hro : removeOldest vLen c =
                ({ c with ll := c.ll.dropLast,
                          nbytes := c.nbytes - entryCost vLen e }, some e) := by
              unfold removeOldest; rw [hlast]
            rw [hro]
            have hinv' := removeOldest_nbytes vLen c hinv
            rw [hro] at hinv'
            apply ih
            · have hle : c.ll.dropLast.length = c.ll.length - 1 := by
                simp [List.length_dropLast]
              have : 0 < c.ll.length := List.length_pos.mpr hne
              simp only [hle]
              omega
            · exact hmax
            · exact hinv'
      · simp only [if_neg hc]
        rfl

/-- If the recency list is empty while the loop guard holds (possible for a
negative `maxBytes`), the Go eviction loop spins forever: no amount of fuel
makes it return. -/
theorem evictLoop_empty_diverges {V : Type} (vLen : V → Nat) (c : LruCache V)
    (hnil : c.ll = []) (h0 : c.maxBytes ≠ 0) (hlt : c.maxBytes < c.nbytes) :
    ∀ (fuel : Nat) (acc : List (String × V)), evictLoop vLen fuel c acc = none := by
  intro fuel
  induction fuel with
  | zero => intro acc; unfold evictLoop; simp [h0, hlt]
  | succ n ih =>
      intro acc
      unfold evictLoop
      have hro : removeOldest vLen c = (c, none) := by
        unfold removeOldest
        rw [List.getLast?_eq_none_iff.mpr hnil]
      simp only [if_pos (And.intro h0 hlt), hro]
      exact ih acc

theorem lruAddInsert_maxBytes {V : Type} (vLen : V → Nat) (c : LruCache V)
    (key : String) (value : V) :
    (lruAddInsert vLen c key value).maxBytes = c.maxBytes := by
  unfold lruAddInsert
  cases c.ll.find? (fun e => e.1 == key) <;> rfl

/-- `lruGet` preserves well-formedness. -/
theorem lruGet_wf {V : Type} (vLen : V → Nat) (c : LruCache V) (key : String)
    (h : LruWF vLen c) : LruWF vLen (lruGet c key).2 := by
  unfold lruGet
  cases hfind : c.ll.find? (fun e => e.1 == key) with
  | none => exact h
  | some kv =>
      obtain ⟨l₁, l₂, _, heq, herase⟩ := find?_eraseP_decomp _ c.ll kv hfind
      constructor
      · have h1 := h.1
        unfold NbytesInv at *
        simp only [herase]
        rw [h1, heq, totalCost_append, totalCost_cons, totalCost_cons, totalCost_append]
        ring
      · have h2 := h.2
        unfold KeysNodup at *
        simp only [herase]
        rw [heq] at h2
        simp only [List.map_append, List.map_cons] at h2
        have h' := List.nodup_middle.mp h2
        simpa using h'

theorem lruGet_maxBytes_nbytes {V : Type} (c : LruCache V) (key : String) :
    (lruGet c key).2.maxBytes = c.maxBytes ∧ (lruGet c key).2.nbytes = c.nbytes := by
  unfold lruGet
  cases c.ll.find? (fun e => e.1 == key) <;> exact ⟨rfl, rfl⟩

/-- Termination of `Add` for a non-negative budget and a state satisfying
(I1): the chosen fuel is enough. -/
theorem lruAdd_total {V : Type} (vLen : V → Nat) (c : LruCache V)
    (key : String) (value : V) (hmax : 0 ≤ c.maxBytes) (hinv : NbytesInv vLen c) :
    ∃ r, lruAdd vLen c key value = some r := by
  unfold lruAdd
  have hinv1 := lruAddInsert_nbytes vLen c key value hinv
  have hmax1 : 0 ≤ (lruAddInsert vLen c key value).maxBytes := by
    rw [lruAddInsert_maxBytes]; exact hmax
  have := evictLoop_total vLen ((lruAddInsert vLen c key value).ll.length + 1)
    (lruAddInsert vLen c key value) [] (by omega) hmax1 hinv1
  exact Option.isSome_iff_exists.mp this

/-! ### Claim theorems about the LRU store -/

/-- C8 (amended): for every non-negative byte budget (zero meaning unbounded)
and every state satisfying the byte-accounting invariant — as all states
reachable from `New` do — `Add` terminates, however many entries its eviction
loop must remove, and cannot fail. -/
theorem lruAdd_terminates {V : Type} (vLen : V → Nat) (c : LruCache V)
    (key : String) (value : V) (hmax : 0 ≤ c.maxBytes) (hinv : NbytesInv vLen c) :
    ∃ r, lruAdd vLen c key value = some r :=
  lruAdd_total vLen c key value hmax hinv

/-- C8 witness input. -/
theorem lruAdd_terminates_witness :
    (0 ≤ (lruNew String 10).maxBytes ∧ NbytesInv String.length (lruNew String 10)) ∧
    ∃ r, lruAdd String.length (lruNew String 10) "k1" "1234" = some r :=
  ⟨⟨by decide, by decide⟩,
   lruAdd_terminates String.length (lruNew String 10) "k1" "1234" (by decide) (by decide)⟩

/-- C8 counterexample: `New` accepts a negative budget (it validates nothing),
and then `Add` does not terminate: once the eviction loop has emptied the
list, `maxBytes != 0 && maxBytes < nbytes` stays true while `RemoveOldest` is
a no-op, so the loop spins forever (the model returns `none`, and
`evictLoop_empty_diverges` shows no fuel bound helps). -/
theorem lruAdd_negative_budget_cex :
    lruAdd String.length (lruNew String (-1)) "a" "v" = none := by decide

/-- C4: with a positive budget and a well-formed state, `Add` updates an
existing key in place (front of the list, byte delta `new.Len() - old.Len()`),
prepends a new key (cost `len(key) + value.Len()`), evicts from the
least-recent end (the evicted entries are exactly the back suffix cut off the
post-insertion list, reported to `OnEvict` in eviction order), and finishes
with `nbytes ≤ maxBytes`. -/
theorem lruAdd_spec {V : Type} (vLen : V → Nat) (c : LruCache V)
    (key : String) (value : V) (hwf : LruWF vLen c) (hpos : 0 < c.maxBytes) :
    ∃ c' ev, lruAdd vLen c key value = some (c', ev) ∧
      c'.nbytes ≤ c.maxBytes ∧ LruWF vLen c' ∧
      (∀ kv, c.ll.find? (fun e => e.1 == key) = some kv →
        (lruAddInsert vLen c key value).ll =
          (key, value) :: c.ll.eraseP (fun e => e.1 == key) ∧
        (lruAddInsert vLen c key value).nbytes =
          c.nbytes + (vLen value : Int) - (vLen kv.2 : Int)) ∧
      (c.ll.find? (fun e => e.1 == key) = none →
        (lruAddInsert vLen c key value).ll = (key, value) :: c.ll ∧
        (lruAddInsert vLen c key value).nbytes =
          c.nbytes + (key.length : Int) + (vLen value : Int)) ∧
      (lruAddInsert vLen c key value).ll = c'.ll ++ ev.reverse := by
  obtain ⟨⟨c', ev⟩, hr⟩ :=
    lruAdd_total vLen c key value (by omega) hwf.1
  obtain ⟨hmaxeq, hfit, tail, hev, hll, hwfimp⟩ :=
    evictLoop_spec vLen _ _ _ _ _ hr
  have hmax1 : (lruAddInsert vLen c key value).maxBytes = c.maxBytes :=
    lruAddInsert_maxBytes vLen c key value
  refine ⟨c', ev, hr, ?_, hwfimp (lruAddInsert_wf vLen c key value hwf), ?_, ?_, ?_⟩
  · rcases hfit with h0 | hle
    · rw [hmaxeq, hmax1] at h0; omega
    · rw [hmaxeq, hmax1] at hle; exact hle
  · intro kv hfind
    constructor
    · unfold lruAddInsert; rw [hfind]
    · unfold lruAddInsert; rw [hfind]
  · intro hfind
    constructor
    · unfold lruAddInsert; rw [hfind]
    · unfold lruAddInsert; rw [hfind]
  · simp only [List.reverse_nil, List.nil_append] at hev
    rw [hll, hev]

/-- C4 witness input. -/
theorem lruAdd_spec_witness :
    (LruWF String.length (lruNew String 10) ∧ 0 < (lruNew String 10).maxBytes) ∧
    ∃ c' ev, lruAdd String.length (lruNew String 10) "k1" "1234" = some (c', ev) ∧
      c'.nbytes ≤ (lruNew String 10).maxBytes ∧ LruWF String.length c' ∧
      (∀ kv, (lruNew String 10).ll.find? (fun e => e.1 == "k1") = some kv →
        (lruAddInsert String.length (lruNew String 10) "k1" "1234").ll =
          ("k1", "1234") :: (lruNew String 10).ll.eraseP (fun e => e.1 == "k1") ∧
        (lruAddInsert String.length (lruNew String 10) "k1" "1234").nbytes =
          (lruNew String 10).nbytes + ("1234".length : Int) - (kv.2.length : Int)) ∧
      ((lruNew String 10).ll.find? (fun e => e.1 == "k1") = none →
        (lruAddInsert String.length (lruNew String 10) "k1" "1234").ll =
          ("k1", "1234") :: (lruNew String 10).ll ∧
        (lruAddInsert String.length (lruNew String 10) "k1" "1234").nbytes =
          (lruNew String 10).nbytes + ("k1".length : Int) + ("1234".length : Int)) ∧
      (lruAddInsert String.length (lruNew String 10) "k1" "1234").ll = c'.ll ++ ev.reverse :=
  ⟨⟨by decide, by decide⟩,
   lruAdd_spec String.length (lruNew String 10) "k1" "1234" ⟨by decide, by decide⟩ (by decide)⟩

/-- C10: with a positive budget, adding a new key whose own cost
`len(key) + value.Len()` exceeds `maxBytes` evicts every entry including the
one just inserted: the final state is empty, `OnEvict` fires for the new key
itself (it appears among the reported evictions), and an immediately
following `Get(key)` reports absent. -/
theorem lruAdd_oversized_evicts_all {V : Type} (vLen : V → Nat) (c : LruCache V)
    (key : String) (value : V) (hwf : LruWF vLen c) (hpos : 0 < c.maxBytes)
    (hnew : c.ll.find? (fun e => e.1 == key) = none)
    (hbig : c.maxBytes < entryCost vLen (key, value)) :
    ∃ c' ev, lruAdd vLen c key value = some (c', ev) ∧
      c'.ll = [] ∧ c'.nbytes = 0 ∧ (key, value) ∈ ev ∧ (lruGet c' key).1 = none := by
  obtain ⟨⟨c', ev⟩, hr⟩ := lruAdd_total vLen c key value (by omega) hwf.1
  obtain ⟨hmaxeq, hfit, tail, hev, hll, hwfimp⟩ := evictLoop_spec vLen _ _ _ _ _ hr
  have hins : (lruAddInsert vLen c key value).ll = (key, value) :: c.ll := by
    unfold lruAddInsert; rw [hnew]
  have hmax1 : (lruAddInsert vLen c key value).maxBytes = c.maxBytes :=
    lruAddInsert_maxBytes vLen c key value
  have hwf' : LruWF vLen c' := hwfimp (lruAddInsert_wf vLen c key value hwf)
  have hfit' : c'.nbytes ≤ c.maxBytes := by
    rcases hfit with h0 | hle
    · rw [hmaxeq, hmax1] at h0; omega
    · rw [hmaxeq, hmax1] at hle; exact hle
  simp only [List.reverse_nil, List.nil_append] at hev
  subst hev
  rw [hins] at hll
  have hnil : c'.ll = [] := by
    cases hcll : c'.ll with
    | nil => rfl
    | cons x rest =>
        exfalso
        rw [hcll] at hll
        have hx : x = (key, value) := by
          have := hll
          simp only [List.cons_append] at this
          exact (List.cons.injEq _ _ _ _ ▸ this).1.symm
        have hge : entryCost vLen (key, value) ≤ c'.nbytes := by
          rw [hwf'.1, hcll, totalCost_cons, hx]
          have := totalCost_nonneg vLen rest
          omega
        omega
  refine ⟨c', ev, hr, hnil, ?_, ?_, ?_⟩
  · rw [hwf'.1, hnil, totalCost_nil]
  · rw [hnil, List.nil_append] at hll
    have : (key, value) ∈ ev.reverse := by rw [← hll]; exact List.mem_cons_self _ _
    simpa using this
  · unfold lruGet
    rw [hnil]
    rfl

/-- C10 witness input. -/
theorem lruAdd_oversized_witness :
    (LruWF String.length (lruNew String 5) ∧ 0 < (lruNew String 5).maxBytes ∧
      (lruNew String 5).ll.find? (fun e => e.1 == "aa") = none ∧
      (lruNew String 5).maxBytes < entryCost String.length ("aa", "bbbb")) ∧
    ∃ c' ev, lruAdd String.length (lruNew String 5) "aa" "bbbb" = some (c', ev) ∧
      c'.ll = [] ∧ c'.nbytes = 0 ∧ ("aa", "bbbb") ∈ ev ∧ (lruGet c' "aa").1 = none :=
  ⟨⟨⟨by decide, by decide⟩, by decide, by decide, by decide⟩,
   lruAdd_oversized_evicts_all String.length (lruNew String 5) "aa" "bbbb"
     ⟨by decide, by decide⟩ (by decide) (by decide) (by decide)⟩

/-! ### Operation sequences over the LRU store (claim C9) -/

theorem lruApply_wf {V : Type} (vLen : V → Nat) (c c' : LruCache V)
    (op : LruOp V) (h : lruApply vLen c op = some c') (hwf : LruWF vLen c) :
    LruWF vLen c' := by
  cases op with
  | add k v =>
      simp only [lruApply, Option.map_eq_some'] at h
      obtain ⟨⟨c₂, ev⟩, hr, hc⟩ := h
      obtain ⟨_, _, _, _, _, hwfimp⟩ := evictLoop_spec vLen _ _ _ _ _ hr
      subst hc
      exact hwfimp (lruAddInsert_wf vLen c k v hwf)
  | get k =>
      cases h
      exact lruGet_wf vLen c k hwf
  | removeOldest =>
      cases h
      exact removeOldest_wf vLen c hwf

theorem lruFold_wf {V : Type} (vLen : V → Nat) :
    ∀ (ops : List (LruOp V)) (c₀ c : LruCache V), LruWF vLen c₀ →
      ops.foldlM (lruApply vLen) c₀ = some c → LruWF vLen c := by
  intro ops
  induction ops with
  | nil =>
      intro c₀ c h0 h
      simp only [List.foldlM_nil] at h
      cases h
      exact h0
  | cons op rest ih =>
      intro c₀ c h0 h
      rw [List.foldlM_cons] at h
      cases happ : lruApply vLen c₀ op with
      | none => rw [happ] at h; simp at h
      | some c₁ =>
          rw [happ] at h
          simp only [Option.bind_eq_bind, Option.some_bind] at h
          exact ih c₁ c (lruApply_wf vLen c₀ c₁ op happ h0) h

theorem lruRun_wf {V : Type} (vLen : V → Nat) (maxBytes : Int)
    (ops : List (LruOp V)) (c : LruCache V) (h : lruRun vLen maxBytes ops = some c) :
    LruWF vLen c := by
  have hstart : LruWF vLen (lruNew V maxBytes) := ⟨rfl, List.nodup_nil⟩
  exact lruFold_wf vLen ops (lruNew V maxBytes) c hstart h

/-- C9: after any sequence of `Add`, `Get` and `RemoveOldest` operations
starting from `New` (one that completes — every `Add` terminated), the byte
total equals the sum over live entries of `len(key) + value.Len()` (I1), and
the recency-list length equals the number of keys of the hash index (I2: the
keys are pairwise distinct, so the index has exactly one entry per list
element). -/
theorem lruRun_invariants {V : Type} (vLen : V → Nat) (maxBytes : Int)
    (ops : List (LruOp V)) (c : LruCache V) (h : lruRun vLen maxBytes ops = some c) :
    c.nbytes = totalCost vLen c.ll ∧
    (c.ll.map Prod.fst).Nodup ∧
    c.ll.length = (c.ll.map Prod.fst).dedup.length := by
  have hwf := lruRun_wf vLen maxBytes ops c h
  refine ⟨hwf.1, hwf.2, ?_⟩
  have := List.dedup_eq_self.mpr hwf.2
  rw [this, List.length_map]

/-- C9 witness input. -/
theorem lruRun_invariants_witness :
    (lruRun String.length 10 [LruOp.add "k1" "1234", LruOp.get "k1", LruOp.removeOldest]
      = some (lruNew String 10)) ∧
    ((lruNew String 10).nbytes = totalCost String.length (lruNew String 10).ll ∧
     ((lruNew String 10).ll.map Prod.fst).Nodup ∧
     (lruNew String 10).ll.length = ((lruNew String 10).ll.map Prod.fst).dedup.length) :=
  ⟨by decide,
   lruRun_invariants String.length 10
     [LruOp.add "k1" "1234", LruOp.get "k1", LruOp.removeOldest]
     (lruNew String 10) (by decide)⟩

/-! ### Lemmas about the consistent-hash ring -/

theorem upsert_lookup_self (l : List (Nat × String)) (h : Nat) (p : String) :
    mapLookup (upsert l h p) h = some p := by
  induction l with
  | nil => simp [upsert, mapLookup]
  | cons e t ih =>
      by_cases he : e.1 = h
      · unfold upsert
        rw [if_pos he]
        simp [mapLookup]
      · unfold upsert
        rw [if_neg he]
        unfold mapLookup at *
        rw [List.find?_cons_of_neg _ (by simpa using he)]
        exact ih

theorem upsert_lookup_other (l : List (Nat × String)) (h : Nat) (p : String)
    (h' : Nat) (hne : h' ≠ h) :
    mapLookup (upsert l h p) h' = mapLookup l h' := by
  induction l with
  | nil => simp [upsert, mapLookup, Ne.symm hne]
  | cons e t ih =>
      by_cases he : e.1 = h
      · unfold upsert
        rw [if_pos he]
        unfold mapLookup
        rw [List.find?_cons_of_neg _ (by simpa using Ne.symm hne),
          List.find?_cons_of_neg _ (by simp [he]; exact Ne.symm hne)]
      · unfold upsert
        rw [if_neg he]
        by_cases he' : e.1 = h'
        · unfold mapLookup
          rw [List.find?_cons_of_pos _ (by simpa using he'),
            List.find?_cons_of_pos _ (by simpa using he')]
        · unfold mapLookup at *
          rw [List.find?_cons_of_neg _ (by simpa using he'),
            List.find?_cons_of_neg _ (by simpa using he')]
          exact ih

/-- The per-peer loop of `Add`, unfolded over an arbitrary index list. -/
theorem addVN_foldl (p : String) :
    ∀ (is : List Nat) (m : HashRing),
      is.foldl
        (fun acc i =>
          let h := virtualHash acc.hash i p
          { acc with keys := acc.keys ++ [h], hashMap := upsert acc.hashMap h p })
        m =
      { m with keys := m.keys ++ is.map (fun i => virtualHash m.hash i p),
               hashMap := is.foldl (fun hm i => upsert hm (virtualHash m.hash i p) p)
                 m.hashMap } := by
  intro is
  induction is with
  | nil => intro m; simp
  | cons i rest ih =>
      intro m
      rw [List.foldl_cons, ih]
      simp

theorem addVirtualNodes_fields (m : HashRing) (p : String) :
    (addVirtualNodes m p).hash = m.hash ∧
    (addVirtualNodes m p).replicas = m.replicas ∧
    (addVirtualNodes m p).keys = m.keys ++ peerHashes m p ∧
    (addVirtualNodes m p).hashMap =
      (List.range m.replicas).foldl
        (fun hm i => upsert hm (virtualHash m.hash i p) p) m.hashMap := by
  unfold addVirtualNodes peerHashes
  rw [addVN_foldl]
  exact ⟨rfl, rfl, rfl, rfl⟩

theorem upsert_foldl_lookup (fn : String → Nat) (p : String) :
    ∀ (is : List Nat) (hm : List (Nat × String)) (h : Nat),
      mapLookup (is.foldl (fun hm i => upsert hm (virtualHash fn i p) p) hm) h =
      if h ∈ is.map (fun i => virtualHash fn i p) then some p else mapLookup hm h := by
  intro is
  induction is with
  | nil => intro hm h; simp
  | cons i rest ih =>
      intro hm h
      rw [List.foldl_cons, ih]
      by_cases hrest : h ∈ rest.map (fun i => virtualHash fn i p)
      · rw [if_pos hrest, if_pos (by simp [hrest])]
      · rw [if_neg hrest]
        by_cases hi : h = virtualHash fn i p
        · rw [if_pos (by simp [hi]), hi, upsert_lookup_self]
        · rw [if_neg (by simp [hi, hrest]), upsert_lookup_other _ _ _ _ hi]

/-- Inserting a peer maps each of its virtual hashes to that peer —
overwriting any earlier peer's entry on a hash collision — and leaves every
other hash's entry unchanged. -/
theorem addVirtualNodes_lookup (m : HashRing) (p : String) (h : Nat) :
    mapLookup (addVirtualNodes m p).hashMap h =
    if h ∈ peerHashes m p then some p else mapLookup m.hashMap h := by
  rw [(addVirtualNodes_fields m p).2.2.2, upsert_foldl_lookup]
  rfl

theorem ringAdd_single_fields (m : HashRing) (p : String) :
    (ringAdd m [p]).hash = m.hash ∧
    (ringAdd m [p]).replicas = m.replicas ∧
    (ringAdd m [p]).hashMap = (addVirtualNodes m p).hashMap := by
  unfold ringAdd
  simp only [List.foldl_cons, List.foldl_nil]
  refine ⟨?_, ?_, ?_⟩
  · exact (addVirtualNodes_fields m p).1
  · exact (addVirtualNodes_fields m p).2.1
  · trivial

/-- `searchGE` when every ring hash is strictly below the key's hash: the
search runs off the end. -/
theorem searchGE_all_lt (h : Nat) :
    ∀ (l : List Nat), (∀ x ∈ l, x < h) → searchGE l h = l.length := by
  intro l
  induction l with
  | nil => intro _; rfl
  | cons a t ih =>
      intro hall
      have ha : ¬ h ≤ a := by
        have := hall a (List.mem_cons_self a t)
        omega
      have hrec := ih (fun x hx => hall x (List.mem_cons_of_mem a hx))
      unfold searchGE at *
      rw [List.findIdx_cons]
      simp [ha, hrec]

/-- `searchGE` on a sorted ring containing some hash `≥ h`: the selected
element is the least ring hash `≥ h`. -/
theorem sorted_searchGE_found (h : Nat) :
    ∀ (l : List Nat), l.Sorted (· ≤ ·) → ∀ x ∈ l, h ≤ x →
      searchGE l h < l.length ∧
      l.getD (searchGE l h) 0 ∈ l ∧
      h ≤ l.getD (searchGE l h) 0 ∧
      ∀ y ∈ l, h ≤ y → l.getD (searchGE l h) 0 ≤ y := by
  intro l
  induction l with
  | nil => intro _ x hx; simp at hx
  | cons a t ih =>
      intro hsort x hx hhx
      obtain ⟨hhead, htail⟩ := List.sorted_cons.mp hsort
      by_cases hha : h ≤ a
      · have h0 : searchGE (a :: t) h = 0 := by
          unfold searchGE
          rw [List.findIdx_cons]
          simp [hha]
        refine ⟨by simp [h0], by simp [h0], by simp [h0, hha], ?_⟩
        intro y hy _
        rw [h0]
        simp only [List.getD_cons_zero]
        rcases List.mem_cons.mp hy with hy | hy
        · omega
        · exact hhead y hy
      · have hxt : x ∈ t := by
          rcases List.mem_cons.mp hx with hx | hx
          · omega
          · exact hx
        have hstep : searchGE (a :: t) h = searchGE t h + 1 := by
          unfold searchGE
          rw [List.findIdx_cons]
          simp [hha]
        obtain ⟨ih1, ih2, ih3, ih4⟩ := ih htail x hxt hhx
        refine ⟨by simp [hstep]; omega, ?_, ?_, ?_⟩
        · rw [hstep]
          simp only [List.getD_cons_succ]
          exact List.mem_cons_of_mem a ih2
        · rw [hstep]
          simpa using ih3
        · intro y hy hhy
          rw [hstep]
          simp only [List.getD_cons_succ]
          rcases List.mem_cons.mp hy with hy | hy
          · omega
          · exact ih4 y hy hhy

/-- On a sorted list containing `h`, the `Remove` search finds an occurrence
of `h` itself, and erasing at that index is `List.erase`. -/
theorem sorted_searchGE_erase (h : Nat) :
    ∀ (l : List Nat), l.Sorted (· ≤ ·) → h ∈ l →
      searchGE l h < l.length ∧ l.eraseIdx (searchGE l h) = l.erase h := by
  intro l
  induction l with
  | nil => intro _ hmem; simp at hmem
  | cons a t ih =>
      intro hsort hmem
      obtain ⟨hhead, htail⟩ := List.sorted_cons.mp hsort
      by_cases hha : h ≤ a
      · have hae : a = h := by
          rcases List.mem_cons.mp hmem with hm | hm
          · omega
          · have := hhead h hm
            omega
        have h0 : searchGE (a :: t) h = 0 := by
          unfold searchGE
          rw [List.findIdx_cons]
          simp [hha]
        refine ⟨by simp [h0], ?_⟩
        rw [h0, List.eraseIdx_cons_zero, List.erase_cons, if_pos (by simp [hae])]
      · have hmt : h ∈ t := by
          rcases List.mem_cons.mp hmem with hm | hm
          · omega
          · exact hm
        have hstep : searchGE (a :: t) h = searchGE t h + 1 := by
          unfold searchGE
          rw [List.findIdx_cons]
          simp [hha]
        obtain ⟨ih1, ih2⟩ := ih htail hmt
        refine ⟨by simp [hstep]; omega, ?_⟩
        rw [hstep, List.eraseIdx_cons_succ, ih2, List.erase_cons,
          if_neg (by simp; omega)]

/-- One `Remove` iteration on a sorted ring that contains the hash: no panic,
one occurrence of the hash is erased, the map entry is deleted. -/
theorem removeStep_present (m : HashRing) (h : Nat)
    (hsort : m.keys.Sorted (· ≤ ·)) (hmem : h ∈ m.keys) :
    removeStep m h = some { m with keys := m.keys.erase h,
                                   hashMap := m.hashMap.filter (fun e => !(e.1 == h)) } := by
  obtain ⟨hlt, herase⟩ := sorted_searchGE_erase h m.keys hsort hmem
  unfold removeStep
  rw [if_pos hlt, herase]

theorem filter_notMem_nil (l : List Nat) :
    l.filter (fun x => decide (x ∉ ([] : List Nat))) = l := by
  induction l with
  | nil => rfl
  | cons a t ih => simp [List.filter_cons, ih]

theorem filter_fst_notMem_nil (l : List (Nat × String)) :
    l.filter (fun e => decide (e.1 ∉ ([] : List Nat))) = l := by
  induction l with
  | nil => rfl
  | cons a t ih => simp [List.filter_cons, ih]

theorem filter_ne_then_notMem (h₀ : Nat) (rest : List Nat) (l : List Nat) :
    (l.filter (fun x => x != h₀)).filter (fun x => decide (x ∉ rest)) =
    l.filter (fun x => decide (x ∉ h₀ :: rest)) := by
  rw [List.filter_filter]
  apply List.filter_congr
  intro a _
  by_cases ha : a = h₀ <;> by_cases hr : a ∈ rest <;> simp [ha, hr]

theorem filter_fst_ne_then_notMem (h₀ : Nat) (rest : List Nat)
    (l : List (Nat × String)) :
    (l.filter (fun e => !(e.1 == h₀))).filter (fun e => decide (e.1 ∉ rest)) =
    l.filter (fun e => decide (e.1 ∉ h₀ :: rest)) := by
  rw [List.filter_filter]
  apply List.filter_congr
  intro a _
  by_cases ha : a.1 = h₀ <;> by_cases hr : a.1 ∈ rest <;> simp [ha, hr]

/-- `Remove`'s whole loop on a collision-free sorted ring whose peer hashes
are all present: it completes and filters out exactly those hashes from the
ring array and the map. -/
theorem foldlM_removeStep_spec :
    ∀ (hs : List Nat) (m : HashRing),
      m.keys.Sorted (· ≤ ·) → m.keys.Nodup → hs.Nodup →
      (∀ h ∈ hs, h ∈ m.keys) →
      ∃ m', hs.foldlM removeStep m = some m' ∧
        m'.hash = m.hash ∧ m'.replicas = m.replicas ∧
        m'.keys = m.keys.filter (fun x => decide (x ∉ hs)) ∧
        m'.hashMap = m.hashMap.filter (fun e => decide (e.1 ∉ hs)) := by
  intro hs
  induction hs with
  | nil =>
      intro m hsort hnodup _ _
      refine ⟨m, rfl, rfl, rfl, ?_, ?_⟩
      · rw [filter_notMem_nil]
      · rw [filter_fst_notMem_nil]
  | cons h₀ rest ih =>
      intro m hsort hnodup hhs hmem
      have hm0 : h₀ ∈ m.keys := hmem h₀ (List.mem_cons_self h₀ rest)
      have hstep := removeStep_present m h₀ hsort hm0
      set m₁ : HashRing :=
        { m with keys := m.keys.erase h₀,
                 hashMap := m.hashMap.filter (fun e => !(e.1 == h₀)) } with hm₁
      have hkeys₁ : m₁.keys = m.keys.filter (fun x => x != h₀) :=
        hnodup.erase_eq_filter h₀
      have hsort₁ : m₁.keys.Sorted (· ≤ ·) :=
        hsort.sublist (List.erase_sublist h₀ m.keys)
      have hnodup₁ : m₁.keys.Nodup :=
        (List.erase_sublist h₀ m.keys).nodup hnodup
      have hhs₁ : rest.Nodup := (List.nodup_cons.mp hhs).2
      have h₀rest : h₀ ∉ rest := (List.nodup_cons.mp hhs).1
      have hmem₁ : ∀ h ∈ rest, h ∈ m₁.keys := by
        intro h hh
        have hne : h ≠ h₀ := by
          intro he; subst he; exact h₀rest hh
        exact (List.mem_erase_of_ne hne).mpr (hmem h (List.mem_cons_of_mem h₀ hh))
      obtain ⟨m', hfold, hh', hr', hk', hmap'⟩ := ih m₁ hsort₁ hnodup₁ hhs₁ hmem₁
      refine ⟨m', ?_, hh', hr', ?_, ?_⟩
      · rw [List.foldlM_cons, hstep]
        simpa using hfold
      · rw [hk', hkeys₁, filter_ne_then_notMem]
      · rw [hmap']
        show (m.hashMap.filter (fun e => !(e.1 == h₀))).filter
          (fun e => decide (e.1 ∉ rest)) = _
        rw [filter_fst_ne_then_notMem]

/-- Looking a hash up in a map filtered on first components: kept hashes read
through, dropped hashes read as missing. -/
theorem mapLookup_filter_keep (l : List (Nat × String)) (q : Nat × String → Bool)
    (h : Nat) (hkeep : ∀ e : Nat × String, e.1 = h → q e = true) :
    mapLookup (l.filter q) h = mapLookup l h := by
  induction l with
  | nil => rfl
  | cons e t ih =>
      rw [List.filter_cons]
      by_cases he : e.1 = h
      · have hpe : (fun e : Nat × String => e.1 == h) e = true := by simp [he]
        rw [hkeep e he, if_pos rfl]
        unfold mapLookup
        rw [@List.find?_cons_of_pos _ (fun e : Nat × String => e.1 == h) e
            (List.filter q t) hpe,
          @List.find?_cons_of_pos _ (fun e : Nat × String => e.1 == h) e t hpe]
      · have hpe : ¬ (fun e : Nat × String => e.1 == h) e = true := by simp [he]
        cases hq : q e with
        | true =>
            rw [if_pos rfl]
            unfold mapLookup at *
            rw [@List.find?_cons_of_neg _ (fun e : Nat × String => e.1 == h) e
                (List.filter q t) hpe,
              @List.find?_cons_of_neg _ (fun e : Nat × String => e.1 == h) e t hpe]
            exact ih
        | false =>
            rw [if_neg (by simp)]
            unfold mapLookup at *
            rw [@List.find?_cons_of_neg _ (fun e : Nat × String => e.1 == h) e t hpe]
            exact ih

theorem mapLookup_filter_drop (l : List (Nat × String)) (q : Nat × String → Bool)
    (h : Nat) (hdrop : ∀ e : Nat × String, e.1 = h → q e = false) :
    mapLookup (l.filter q) h = none := by
  induction l with
  | nil => rfl
  | cons e t ih =>
      rw [List.filter_cons]
      by_cases he : e.1 = h
      · rw [hdrop e he, if_neg (by simp)]
        exact ih
      · have hpe : ¬ (fun e : Nat × String => e.1 == h) e = true := by simp [he]
        cases hq : q e with
        | true =>
            rw [if_pos rfl]
            unfold mapLookup at *
            rw [@List.find?_cons_of_neg _ (fun e : Nat × String => e.1 == h) e
                (List.filter q t) hpe]
            exact ih
        | false =>
            rw [if_neg (by simp)]
            exact ih

theorem removeStep_sorted (m m' : HashRing) (h : Nat)
    (hstep : removeStep m h = some m') (hsort : m.keys.Sorted (· ≤ ·)) :
    m'.keys.Sorted (· ≤ ·) := by
  unfold removeStep at hstep
  by_cases hlt : searchGE m.keys h < m.keys.length
  · rw [if_pos hlt] at hstep
    cases hstep
    exact hsort.sublist (List.eraseIdx_sublist m.keys (searchGE m.keys h))
  · rw [if_neg hlt] at hstep
    cases hstep

theorem foldlM_removeStep_sorted :
    ∀ (hs : List Nat) (m m' : HashRing), hs.foldlM removeStep m = some m' →
      m.keys.Sorted (· ≤ ·) → m'.keys.Sorted (· ≤ ·) := by
  intro hs
  induction hs with
  | nil =>
      intro m m' hfold hsort
      simp only [List.foldlM_nil] at hfold
      cases hfold
      exact hsort
  | cons h₀ rest ih =>
      intro m m' hfold hsort
      rw [List.foldlM_cons] at hfold
      cases hstep : removeStep m h₀ with
      | none => rw [hstep] at hfold; simp at hfold
      | some m₁ =>
          rw [hstep] at hfold
          simp only [Option.bind_eq_bind, Option.some_bind] at hfold
          exact ih m₁ m' hfold (removeStep_sorted m m₁ h₀ hstep hsort)

/-- Every reachable ring keeps its hash array sorted ascending. -/
theorem reachable_sorted (m : HashRing) (h : RingReachable m) :
    m.keys.Sorted (· ≤ ·) := by
  induction h with
  | new replicas fn => exact List.sorted_nil
  | add m peers _ _ =>
      unfold ringAdd
      exact List.sorted_insertionSort _ _
  | remove m peer m' _ hrem ih =>
      exact foldlM_removeStep_sorted (peerHashes m peer) m m' hrem ih

/-! ### Claim theorems about the consistent-hash ring -/

/-- C3: on every reachable ring, `Get` is a pure function of the ring state
(determinism); an empty ring returns the empty peer ID; a non-empty ring
selects (via the binary search, wrapping to index 0 when no virtual node has
hash `≥ h`) the least virtual-node hash `≥ hash(key)` — or slot 0 when all
hashes are below — and returns that node's mapped peer. -/
theorem ringGet_spec (m : HashRing) (key : String) (hreach : RingReachable m) :
    (m.keys = [] → ringGet m key = "") ∧
    (m.keys ≠ [] →
      ringGet m key = (mapLookup m.hashMap (selHash m key)).getD "" ∧
      ((∃ x ∈ m.keys, m.hash key % 4294967296 ≤ x) →
        selHash m key ∈ m.keys ∧
        m.hash key % 4294967296 ≤ selHash m key ∧
        ∀ y ∈ m.keys, m.hash key % 4294967296 ≤ y → selHash m key ≤ y) ∧
      ((∀ x ∈ m.keys, x < m.hash key % 4294967296) →
        selHash m key = m.keys.getD 0 0)) := by
  have hsort := reachable_sorted m hreach
  have hsel : selHash m key =
      m.keys.getD (searchGE m.keys (m.hash key % 4294967296) % m.keys.length) 0 := rfl
  constructor
  · intro hnil
    unfold ringGet
    rw [if_pos hnil]
  · intro hne
    refine ⟨?_, ?_, ?_⟩
    · unfold ringGet
      rw [if_neg hne]
    · rintro ⟨x, hx, hhx⟩
      obtain ⟨h1, h2, h3, h4⟩ :=
        sorted_searchGE_found (m.hash key % 4294967296) m.keys hsort x hx hhx
      rw [hsel, Nat.mod_eq_of_lt h1]
      exact ⟨h2, h3, h4⟩
    · intro hall
      rw [hsel, searchGE_all_lt (m.hash key % 4294967296) m.keys hall, Nat.mod_self]

/-- C3 witness input. -/
theorem ringGet_spec_witness :
    (ringW.keys = [] → ringGet ringW "b" = "") ∧
    (ringW.keys ≠ [] →
      ringGet ringW "b" = (mapLookup ringW.hashMap (selHash ringW "b")).getD "" ∧
      ((∃ x ∈ ringW.keys, ringW.hash "b" % 4294967296 ≤ x) →
        selHash ringW "b" ∈ ringW.keys ∧
        ringW.hash "b" % 4294967296 ≤ selHash ringW "b" ∧
        ∀ y ∈ ringW.keys, ringW.hash "b" % 4294967296 ≤ y → selHash ringW "b" ≤ y) ∧
      ((∀ x ∈ ringW.keys, x < ringW.hash "b" % 4294967296) →
        selHash ringW "b" = ringW.keys.getD 0 0)) :=
  ringGet_spec ringW "b"
    (RingReachable.add (ringNew 1 (fun s => s.length)) ["aa"]
      (RingReachable.new 1 (fun s => s.length)))

/-- C6 counterexample: with replica count 1 and the constant hash function 7,
peers "A" then "B" produce two colliding virtual nodes; `Get` resolves the
collision to "B" — the LAST-inserted virtual node — because the Go map
assignment in `Add` overwrites the earlier entry, refuting first-inserted
tie-breaking. -/
theorem ringGet_collision_first_loses :
    ringGet constHashRing "x" = "B" ∧ ringGet constHashRing "x" ≠ "A" := by
  constructor
  · rfl
  · decide

/-- C6 (amended): when two virtual nodes collide on the same 32-bit value,
`Get` resolves the collision in favor of the LAST-inserted one: after
`Add(p)`, every key whose ring slot is one of `p`'s virtual hashes maps to
`p`, regardless of any earlier peer's colliding node. -/
theorem ringAdd_collision_last_wins (m : HashRing) (p : String) (key : String)
    (hne : (ringAdd m [p]).keys ≠ [])
    (hsel : selHash (ringAdd m [p]) key ∈ peerHashes m p) :
    ringGet (ringAdd m [p]) key = p := by
  have hmap := (ringAdd_single_fields m p).2.2
  unfold ringGet
  rw [if_neg hne, hmap, addVirtualNodes_lookup, if_pos hsel]
  rfl

/-- C6 witness input. -/
theorem ringAdd_collision_last_wins_witness :
    ((ringAdd (ringAdd (ringNew 1 (fun _ => 7)) ["A"]) ["B"]).keys ≠ [] ∧
     selHash (ringAdd (ringAdd (ringNew 1 (fun _ => 7)) ["A"]) ["B"]) "x" ∈
       peerHashes (ringAdd (ringNew 1 (fun _ => 7)) ["A"]) "B") ∧
    ringGet (ringAdd (ringAdd (ringNew 1 (fun _ => 7)) ["A"]) ["B"]) "x" = "B" :=
  ⟨⟨by decide, by decide⟩,
   ringAdd_collision_last_wins (ringAdd (ringNew 1 (fun _ => 7)) ["A"]) "B" "x"
     (by decide) (by decide)⟩

/-- C7 counterexample: (1) removing a peer that was never added can index out
of range — `Remove("zzzz")` on a one-node ring panics (the search lands past
the end and `keys[idx+1:]` is a slice-bounds violation), modelled as `none`;
(2) with a hash collision between two peers, removing one peer deletes the
shared map entry while the other peer's array copy survives, so an array
element is left with no map entry — breaking the claimed invariant. -/
theorem ringRemove_cex :
    ringRemove ringW "zzzz" = none ∧
    (ringRemove constHashRing "B").map
      (fun m' => (m'.keys, mapLookup m'.hashMap 7)) = some ([7], none) := by
  constructor
  · rfl
  · rfl

/-- C7 (amended): on a reachable (hence sorted) ring without hash collisions
(distinct array hashes, the removed peer's replica hashes distinct and all
present), `Remove(peer)` completes without out-of-range access, deletes
exactly that peer's `replicas` virtual hashes from the array and their
entries from the map, preserves sortedness, leaves other map entries
untouched, and preserves "every array element is a key of the map". -/
theorem ringRemove_spec (m : HashRing) (peer : String)
    (hreach : RingReachable m) (hnodupk : m.keys.Nodup)
    (hnodup : (peerHashes m peer).Nodup)
    (hmem : ∀ h ∈ peerHashes m peer, h ∈ m.keys) :
    ∃ m', ringRemove m peer = some m' ∧
      m'.keys.Sorted (· ≤ ·) ∧
      m'.keys = m.keys.filter (fun x => decide (x ∉ peerHashes m peer)) ∧
      (∀ h ∈ peerHashes m peer, mapLookup m'.hashMap h = none) ∧
      (∀ h, h ∉ peerHashes m peer → mapLookup m'.hashMap h = mapLookup m.hashMap h) ∧
      ((∀ x ∈ m.keys, (mapLookup m.hashMap x).isSome) →
        ∀ x ∈ m'.keys, (mapLookup m'.hashMap x).isSome) := by
  have hsort := reachable_sorted m hreach
  obtain ⟨m', hfold, _, _, hk', hmap'⟩ :=
    foldlM_removeStep_spec (peerHashes m peer) m hsort hnodupk hnodup hmem
  refine ⟨m', hfold, ?_, hk', ?_, ?_, ?_⟩
  · rw [hk']
    exact hsort.sublist (List.filter_sublist m.keys)
  · intro h hh
    rw [hmap']
    apply mapLookup_filter_drop
    intro e he
    simp [he, hh]
  · intro h hh
    rw [hmap']
    apply mapLookup_filter_keep
    intro e he
    simp [he, hh]
  · intro hall x hx
    rw [hk'] at hx
    obtain ⟨hxm, hxp⟩ := List.mem_filter.mp hx
    have hxnot : x ∉ peerHashes m peer := by simpa using hxp
    rw [hmap', mapLookup_filter_keep _ _ _ (fun e he => by simp [he, hxnot])]
    exact hall x hxm

/-- C7 witness input. -/
theorem ringRemove_spec_witness :
    (ringW.keys.Nodup ∧ (peerHashes ringW "aa").Nodup ∧
      ∀ h ∈ peerHashes ringW "aa", h ∈ ringW.keys) ∧
    ∃ m', ringRemove ringW "aa" = some m' ∧
      m'.keys.Sorted (· ≤ ·) ∧
      m'.keys = ringW.keys.filter (fun x => decide (x ∉ peerHashes ringW "aa")) ∧
      (∀ h ∈ peerHashes ringW "aa", mapLookup m'.hashMap h = none) ∧
      (∀ h, h ∉ peerHashes ringW "aa" →
        mapLookup m'.hashMap h = mapLookup ringW.hashMap h) ∧
      ((∀ x ∈ ringW.keys, (mapLookup ringW.hashMap x).isSome) →
        ∀ x ∈ m'.keys, (mapLookup m'.hashMap x).isSome) :=
  ⟨⟨by decide, by decide, by decide⟩,
   ringRemove_spec ringW "aa"
     (RingReachable.add (ringNew 1 (fun s => s.length)) ["aa"]
       (RingReachable.new 1 (fun s => s.length)))
     (by decide) (by decide) (by decide)⟩

/-! ### Lemmas about the Group coordinator -/

/-- Behaviour of `getLocally` when the cache insertion terminates: the result
errs exactly when the origin loader errs, and the cache is modified only by
inserting a successfully loaded value. -/
theorem getLocally_spec (g : GroupModel) (key : String)
    (hmax : 0 ≤ g.mainCache.maxBytes)
    (hinv : NbytesInv ByteView.len g.mainCache) :
    ∃ r g', getLocally g key = some (r, g') ∧
      ((∃ e, r = Except.error e) ↔ ∃ e, g.getter key = Except.error e) ∧
      (g'.mainCache = g.mainCache ∨
        ∃ bytes mc ev, g.getter key = Except.ok bytes ∧
          cacheAdd g.mainCache key ⟨bytes⟩ = some (mc, ev) ∧
          g'.mainCache = mc ∧ r = Except.ok ⟨bytes⟩) := by
  cases hg : g.getter key with
  | error e =>
      refine ⟨Except.error e, g, ?_, ?_, Or.inl rfl⟩
      · unfold getLocally
        rw [hg]
      · constructor
        · intro _; exact ⟨e, rfl⟩
        · intro _; exact ⟨e, rfl⟩
  | ok bytes =>
      obtain ⟨⟨mc, ev⟩, hadd⟩ :=
        lruAdd_total ByteView.len g.mainCache key ⟨bytes⟩ hmax hinv
      refine ⟨Except.ok ⟨bytes⟩, { g with mainCache := mc }, ?_, ?_, ?_⟩
      · unfold getLocally
        rw [hg]
        simp only [cloneBytes]
        rw [show cacheAdd g.mainCache key ⟨bytes⟩ = some (mc, ev) from hadd]
      · simp [hg]
      · exact Or.inr ⟨bytes, mc, ev, rfl, hadd, rfl, rfl⟩

/-! ### Claim theorems about the Group coordinator -/

/-- C1: `Group.Get(key)` returns exactly one `(value, error)` result, and it
is an error precisely when the key is empty (`"key is required"`, issued
before any cache probe, which is why the state is returned unchanged) or
when, the local probe having missed and the peer path being absent or
failing, the origin loader fails; a hit never errs, and a peer-client
failure alone never fails the call (the loader is retried locally). -/
theorem groupGet_error_iff (g : GroupModel) (key : String)
    (hmax : 0 ≤ g.mainCache.maxBytes)
    (hinv : NbytesInv ByteView.len g.mainCache) :
    ∃ r g', groupGet g key = some (r, g') ∧
      ((∃ e, r = Except.error e) ↔
        (key = "" ∨
          ((cacheGet g.mainCache key).1 = none ∧ ¬ PeerServes g key ∧
            ∃ e, g.getter key = Except.error e))) ∧
      (key = "" → g' = g ∧ r = Except.error "key is required") ∧
      (∀ v mc, key ≠ "" → cacheGet g.mainCache key = (some v, mc) →
        r = Except.ok v) := by
  by_cases hkey : key = ""
  · refine ⟨Except.error "key is required", g, ?_, ?_, fun _ => ⟨rfl, rfl⟩, ?_⟩
    · unfold groupGet
      rw [if_pos hkey]
    · constructor
      · intro _; exact Or.inl hkey
      · intro _; exact ⟨"key is required", rfl⟩
    · intro v mc hne _; exact absurd hkey hne
  · obtain ⟨o, mc, hc⟩ : ∃ o mc, cacheGet g.mainCache key = (o, mc) := ⟨_, _, rfl⟩
    cases o with
    | some v =>
        refine ⟨Except.ok v, { g with mainCache := mc }, ?_, ?_, ?_, ?_⟩
        · unfold groupGet
          rw [if_neg hkey, hc]
        · constructor
          · rintro ⟨e, he⟩; cases he
          · rintro (h | ⟨hmiss, _, _⟩)
            · exact absurd h hkey
            · rw [hc] at hmiss; simp at hmiss
        · intro h; exact absurd h hkey
        · intro v' mc' _ hc'
          rw [hc] at hc'
          have h1 : some v = some v' := congrArg Prod.fst hc'
          injection h1 with h2
          rw [h2]
    | none =>
        have hroute : groupGet g key = loadFn g key := by
          unfold groupGet
          rw [if_neg hkey, hc]
        have hmiss : (cacheGet g.mainCache key).1 = none := by rw [hc]
        have hfallback :
            ∀ hnp : ¬ PeerServes g key, loadFn g key = getLocally g key →
            ∃ r g', groupGet g key = some (r, g') ∧
              ((∃ e, r = Except.error e) ↔
                (key = "" ∨
                  ((cacheGet g.mainCache key).1 = none ∧ ¬ PeerServes g key ∧
                    ∃ e, g.getter key = Except.error e))) ∧
              (key = "" → g' = g ∧ r = Except.error "key is required") ∧
              (∀ v mc, key ≠ "" → cacheGet g.mainCache key = (some v, mc) →
                r = Except.ok v) := by
          intro hnp hload
          obtain ⟨r, g', hgl, hiff, _⟩ := getLocally_spec g key hmax hinv
          refine ⟨r, g', by rw [hroute, hload, hgl], ?_, ?_, ?_⟩
          · constructor
            · intro hre
              exact Or.inr ⟨hmiss, hnp, hiff.mp hre⟩
            · rintro (h | ⟨_, _, hge⟩)
              · exact absurd h hkey
              · exact hiff.mpr hge
          · intro h; exact absurd h hkey
          · intro v' mc' _ hc'
            rw [hc] at hc'
            have h1 : (none : Option ByteView) = some v' := congrArg Prod.fst hc'
            cases h1
        cases hp : g.peers with
        | none =>
            refine hfallback ?_ ?_
            · rintro ⟨picker, peer, bytes, hpk, _, _⟩
              rw [hp] at hpk; cases hpk
            · simp only [loadFn, hp]
        | some picker =>
            cases hpk : picker key with
            | none =>
                refine hfallback ?_ ?_
                · rintro ⟨picker', peer, bytes, hpk', hpick, _⟩
                  rw [hp] at hpk'
                  cases hpk'
                  rw [hpk] at hpick; cases hpick
                · simp only [loadFn, hp, hpk]
            | some peer =>
                cases hpg : peer.get g.name key with
                | error e =>
                    have hgf : getFromPeer g peer key = Except.error e := by
                      unfold getFromPeer; rw [hpg]
                    refine hfallback ?_ ?_
                    · rintro ⟨picker', peer', bytes, hpk', hpick, hok⟩
                      rw [hp] at hpk'
                      cases hpk'
                      rw [hpk] at hpick
                      cases hpick
                      rw [hpg] at hok
                      cases hok
                    · simp only [loadFn, hp, hpk, hgf]
                | ok bytes =>
                    have hgf : getFromPeer g peer key = Except.ok ⟨bytes⟩ := by
                      unfold getFromPeer; rw [hpg]
                    have hps : PeerServes g key := ⟨picker, peer, bytes, hp, hpk, hpg⟩
                    refine ⟨Except.ok ⟨bytes⟩, g, ?_, ?_, ?_, ?_⟩
                    · rw [hroute]
                      simp only [loadFn, hp, hpk, hgf]
                    · constructor
                      · rintro ⟨e, he⟩; cases he
                      · rintro (h | ⟨_, hnp, _⟩)
                        · exact absurd h hkey
                        · exact absurd hps hnp
                    · intro h; exact absurd h hkey
                    · intro v' mc' _ hc'
                      rw [hc] at hc'
                      have h1 : (none : Option ByteView) = some v' := congrArg Prod.fst hc'
                      cases h1

/-- C1 witness input. -/
theorem groupGet_error_iff_witness :
    (0 ≤ groupW.mainCache.maxBytes ∧ NbytesInv ByteView.len groupW.mainCache) ∧
    ∃ r g', groupGet groupW "k" = some (r, g') ∧
      ((∃ e, r = Except.error e) ↔
        ("k" = "" ∨
          ((cacheGet groupW.mainCache "k").1 = none ∧ ¬ PeerServes groupW "k" ∧
            ∃ e, groupW.getter "k" = Except.error e))) ∧
      ("k" = "" → g' = groupW ∧ r = Except.error "key is required") ∧
      (∀ v mc, "k" ≠ "" → cacheGet groupW.mainCache "k" = (some v, mc) →
        r = Except.ok v) :=
  ⟨⟨by decide, by decide⟩, groupGet_error_iff groupW "k" (by decide) (by decide)⟩

/-- C5: when a remote peer serves the value, `Group.Get` returns it with the
local LRU untouched (no population of the local cache); and on the miss path
in general, the only way the cache changes is by inserting a value obtained
from the origin loader. -/
theorem groupGet_remote_not_cached (g : GroupModel) (key : String)
    (hkey : key ≠ "") (hmiss : (cacheGet g.mainCache key).1 = none) :
    (∀ picker peer bytes, g.peers = some picker → picker key = some peer →
      peer.get g.name key = Except.ok bytes →
      groupGet g key = some (Except.ok ⟨bytes⟩, g)) ∧
    (∀ r g', groupGet g key = some (r, g') →
      g'.mainCache = g.mainCache ∨
      ∃ bytes mc ev, g.getter key = Except.ok bytes ∧
        cacheAdd g.mainCache key ⟨bytes⟩ = some (mc, ev) ∧
        g'.mainCache = mc ∧ r = Except.ok ⟨bytes⟩) := by
  obtain ⟨o, mc, hc⟩ : ∃ o mc, cacheGet g.mainCache key = (o, mc) := ⟨_, _, rfl⟩
  have ho : o = none := by
    rw [hc] at hmiss
    exact hmiss
  subst ho
  have hroute : groupGet g key = loadFn g key := by
    unfold groupGet
    rw [if_neg hkey, hc]
  have hlocal :
      ∀ r g', getLocally g key = some (r, g') →
        g'.mainCache = g.mainCache ∨
        ∃ bytes mc ev, g.getter key = Except.ok bytes ∧
          cacheAdd g.mainCache key ⟨bytes⟩ = some (mc, ev) ∧
          g'.mainCache = mc ∧ r = Except.ok ⟨bytes⟩ := by
    intro r g' hgl
    unfold getLocally at hgl
    cases hg : g.getter key with
    | error e =>
        rw [hg] at hgl
        cases hgl
        exact Or.inl rfl
    | ok bytes =>
        rw [hg] at hgl
        simp only [cloneBytes] at hgl
        cases hadd : cacheAdd g.mainCache key ⟨bytes⟩ with
        | none => rw [hadd] at hgl; cases hgl
        | some p =>
            rcases p with ⟨mc₂, ev⟩
            rw [hadd] at hgl
            cases hgl
            exact Or.inr ⟨bytes, mc₂, ev, rfl, hadd, rfl, rfl⟩
  constructor
  · intro picker peer bytes hp hpk hpg
    have hgf : getFromPeer g peer key = Except.ok ⟨bytes⟩ := by
      unfold getFromPeer; rw [hpg]
    rw [hroute]
    simp only [loadFn, hp, hpk, hgf]
  · intro r g' hget
    rw [hroute] at hget
    cases hp : g.peers with
    | none =>
        simp only [loadFn, hp] at hget
        exact hlocal r g' hget
    | some picker =>
        cases hpk : picker key with
        | none =>
            simp only [loadFn, hp, hpk] at hget
            exact hlocal r g' hget
        | some peer =>
            cases hpg : getFromPeer g peer key with
            | error e =>
                simp only [loadFn, hp, hpk, hpg] at hget
                exact hlocal r g' hget
            | ok v =>
                simp only [loadFn, hp, hpk, hpg] at hget
                injection hget with h1
                have hg2 : g' = g := (congrArg Prod.snd h1).symm
                rw [hg2]
                exact Or.inl rfl

/-- C5 witness input. -/
theorem groupGet_remote_not_cached_witness :
    ("k" ≠ "" ∧ (cacheGet groupP.mainCache "k").1 = none) ∧
    ((∀ picker peer bytes, groupP.peers = some picker → picker "k" = some peer →
      peer.get groupP.name "k" = Except.ok bytes →
      groupGet groupP "k" = some (Except.ok ⟨bytes⟩, groupP)) ∧
    (∀ r g', groupGet groupP "k" = some (r, g') →
      g'.mainCache = groupP.mainCache ∨
      ∃ bytes mc ev, groupP.getter "k" = Except.ok bytes ∧
        cacheAdd groupP.mainCache "k" ⟨bytes⟩ = some (mc, ev) ∧
        g'.mainCache = mc ∧ r = Except.ok ⟨bytes⟩)) :=
  ⟨⟨by decide, by decide⟩, groupGet_remote_not_cached groupP "k" (by decide) (by decide)⟩

/-! ### Lemmas about the single-flight coalescer -/

theorem sts_set_get_self (sts : List CallerSt) (i : Nat) (st x : CallerSt)
    (h : sts.get? i = some st) : (sts.set i x).get? i = some x := by
  obtain ⟨hlt, _⟩ := List.get?_eq_some.mp h
  exact List.get?_set_eq_of_lt x hlt

theorem sts_set_get_ne (sts : List CallerSt) (i j : Nat) (x : CallerSt)
    (hne : i ≠ j) : (sts.set i x).get? j = sts.get? j :=
  List.get?_set_ne x sts hne

theorem ownerish_set_ne (sts : List CallerSt) (i j id : Nat) (x : CallerSt)
    (hne : i ≠ j) : Ownerish (sts.set i x) j id ↔ Ownerish sts j id := by
  unfold Ownerish
  rw [sts_set_get_ne sts i j x hne]

theorem findRec_mem (recs : List CallRec) (id : Nat) (r : CallRec)
    (h : findRec recs id = some r) : r ∈ recs ∧ r.id = id := by
  refine ⟨List.mem_of_find?_eq_some h, ?_⟩
  have := List.find?_some h
  simpa using this

theorem setRecResult_ids (recs : List CallRec) (id : Nat) (p : Nat × Option String) :
    (setRecResult recs id p).map CallRec.id = recs.map CallRec.id := by
  unfold setRecResult
  rw [List.map_map]
  apply List.map_congr_left
  intro r _
  by_cases h : r.id = id <;> simp [h]

theorem setRecResult_shape (recs : List CallRec) (id : Nat)
    (p : Nat × Option String) (r' : CallRec) (h : r' ∈ setRecResult recs id p) :
    ∃ r ∈ recs, r'.id = r.id ∧ r'.creator = r.creator ∧
      ((r.id = id ∧ r'.result = some p) ∨ (r.id ≠ id ∧ r'.result = r.result)) := by
  obtain ⟨r, hr, heq⟩ := List.mem_map.mp h
  by_cases hid : r.id = id
  · rw [if_pos hid] at heq
    exact ⟨r, hr, by rw [← heq], by rw [← heq], Or.inl ⟨hid, by rw [← heq]⟩⟩
  · rw [if_neg hid] at heq
    exact ⟨r, hr, by rw [← heq], by rw [← heq], Or.inr ⟨hid, by rw [← heq]⟩⟩

theorem setRecResult_mem_self (recs : List CallRec) (id : Nat)
    (p : Nat × Option String) (r : CallRec) (hr : r ∈ recs) (hid : r.id = id) :
    { r with result := some p } ∈ setRecResult recs id p :=
  List.mem_map.mpr ⟨r, hr, by rw [if_pos hid]⟩

theorem setRecResult_mem_other (recs : List CallRec) (id : Nat)
    (p : Nat × Option String) (r : CallRec) (hr : r ∈ recs) (hid : r.id ≠ id) :
    r ∈ setRecResult recs id p :=
  List.mem_map.mpr ⟨r, hr, by rw [if_neg hid]⟩

/-- Records with the same id coincide. -/
theorem rec_unique {thunks : List (Nat × Option String)} {s : SFState}
    (inv : SFInv thunks s) {r r' : CallRec} (hr : r ∈ s.recs) (hr' : r' ∈ s.recs)
    (h : r.id = r'.id) : r = r' :=
  List.inj_on_of_nodup_map inv.recIdsNodup hr hr' h

/-- At most one caller owns the published record. -/
theorem owner_unique {thunks : List (Nat × Option String)} {s : SFState}
    (inv : SFInv thunks s) {i j id id' : Nat}
    (hi : Ownerish s.sts i id) (hj : Ownerish s.sts j id') : i = j ∧ id = id' := by
  have h1 := inv.ownSlot i id hi
  have h2 := inv.ownSlot j id' hj
  rw [h1] at h2
  injection h2 with h3
  subst h3
  obtain ⟨r, hr, hrid, hrc⟩ := inv.ownRec i id hi
  obtain ⟨r', hr', hrid', hrc'⟩ := inv.ownRec j id hj
  have heq := rec_unique inv hr hr' (hrid.trans hrid'.symm)
  subst heq
  exact ⟨hrc.symm.trans hrc', rfl⟩

/-- Invariant preservation: a ready caller finds the record and waits. -/
theorem sfInv_step_wait {thunks : List (Nat × Option String)} {s : SFState}
    {i id : Nat} (inv : SFInv thunks s)
    (hst : s.sts.get? i = some CallerSt.ready) (hslot : s.slot = some id) :
    SFInv thunks { s with sts := s.sts.set i (CallerSt.waiting id) } := by
  have hgself := sts_set_get_self s.sts i CallerSt.ready (CallerSt.waiting id) hst
  have hcne : ∀ r ∈ s.recs, r.creator ≠ i := by
    intro r hr h
    exact (inv.creatorNotReady r hr).1 (h ▸ hst)
  constructor
  case recId => exact inv.recId
  case recIdsNodup => exact inv.recIdsNodup
  case recResult => exact inv.recResult
  case creatorNotReady =>
      intro r hr
      have hold := inv.creatorNotReady r hr
      rw [sts_set_get_ne s.sts i r.creator _ (fun h => hcne r hr h.symm)]
      exact hold
  case creatorInj => exact inv.creatorInj
  case ownSlot =>
      intro j id' hown
      by_cases hji : j = i
      · subst hji
        rcases hown with h | ⟨v, e, h⟩ <;> rw [hgself] at h <;> cases h
      · exact inv.ownSlot j id'
          ((ownerish_set_ne s.sts i j id' _ (fun h => hji h.symm)).mp hown)
  case ownRec =>
      intro j id' hown
      by_cases hji : j = i
      · subst hji
        rcases hown with h | ⟨v, e, h⟩ <;> rw [hgself] at h <;> cases h
      · exact inv.ownRec j id'
          ((ownerish_set_ne s.sts i j id' _ (fun h => hji h.symm)).mp hown)
  case slotOwn =>
      intro id' hs
      obtain ⟨j, hj⟩ := inv.slotOwn id' hs
      have hji : j ≠ i := by
        intro h
        subst h
        rcases hj with h | ⟨v, e, h⟩ <;> rw [hst] at h <;> cases h
      exact ⟨j, (ownerish_set_ne s.sts i j id' _ (fun h => hji h.symm)).mpr hj⟩
  case runningIncomplete =>
      intro j id' hj
      by_cases hji : j = i
      · subst hji; rw [hgself] at hj; cases hj
      · rw [sts_set_get_ne s.sts i j _ (fun h => hji h.symm)] at hj
        exact inv.runningIncomplete j id' hj
  case deletingRec =>
      intro j id' v e hj
      by_cases hji : j = i
      · subst hji; rw [hgself] at hj; cases hj
      · rw [sts_set_get_ne s.sts i j _ (fun h => hji h.symm)] at hj
        exact inv.deletingRec j id' v e hj
  case waitingRec =>
      intro j id' hj
      by_cases hji : j = i
      · subst hji
        rw [hgself] at hj
        injection hj with hj'
        cases hj'
        obtain ⟨k, hk⟩ := inv.slotOwn id hslot
        obtain ⟨r, hr, hrid, _⟩ := inv.ownRec k id hk
        exact ⟨r, hr, hrid⟩
      · rw [sts_set_get_ne s.sts i j _ (fun h => hji h.symm)] at hj
        exact inv.waitingRec j id' hj
  case doneRec =>
      intro j v e hj
      by_cases hji : j = i
      · subst hji; rw [hgself] at hj; cases hj
      · rw [sts_set_get_ne s.sts i j _ (fun h => hji h.symm)] at hj
        exact inv.doneRec j v e hj
  case invokedNodup => exact inv.invokedNodup
  case invokedRec => exact inv.invokedRec
  case recInvoked => exact inv.recInvoked
  case creatorLt =>
      intro r hr
      have := inv.creatorLt r hr
      simpa using this

/-- Invariant preservation: a ready caller publishes a fresh record. -/
theorem sfInv_step_create {thunks : List (Nat × Option String)} {s : SFState}
    {i : Nat} (inv : SFInv thunks s)
    (hst : s.sts.get? i = some CallerSt.ready) (hslot : s.slot = none) :
    SFInv thunks
      { s with sts := s.sts.set i (CallerSt.running s.nextId),
               slot := some s.nextId,
               recs := ⟨s.nextId, i, none⟩ :: s.recs,
               nextId := s.nextId + 1 } := by
  have hgself := sts_set_get_self s.sts i CallerSt.ready (CallerSt.running s.nextId) hst
  have hcne : ∀ r ∈ s.recs, r.creator ≠ i := by
    intro r hr h
    exact (inv.creatorNotReady r hr).1 (h ▸ hst)
  have hilt : i < s.sts.length := (List.get?_eq_some.mp hst).1
  have hnoOwner : ∀ j id', ¬ Ownerish s.sts j id' := by
    intro j id' hj
    have := inv.ownSlot j id' hj
    rw [hslot] at this
    cases this
  constructor
  case recId =>
      intro r hr
      rcases List.mem_cons.mp hr with h | h
      · subst h; simp
      · have := inv.recId r h; simp; omega
  case recIdsNodup =>
      simp only [List.map_cons, List.nodup_cons]
      refine ⟨?_, inv.recIdsNodup⟩
      intro hmem
      obtain ⟨r, hr, hrid⟩ := List.mem_map.mp hmem
      have := inv.recId r hr
      omega
  case recResult =>
      intro r hr p hp
      rcases List.mem_cons.mp hr with h | h
      · subst h; cases hp
      · exact inv.recResult r h p hp
  case creatorNotReady =>
      intro r hr
      rcases List.mem_cons.mp hr with h | h
      · subst h
        constructor
        · simp only []
          rw [hgself]
          intro hcon; cases hcon
        · intro id' hcon
          simp only [] at hcon
          rw [hgself] at hcon
          cases hcon
      · have hold := inv.creatorNotReady r h
        have hne : i ≠ r.creator := fun hh => hcne r h hh.symm
        constructor
        · simp only []
          rw [sts_set_get_ne s.sts i r.creator _ hne]
          exact hold.1
        · intro id'
          simp only []
          rw [sts_set_get_ne s.sts i r.creator _ hne]
          exact hold.2 id'
  case creatorInj =>
      intro r hr r' hr' hcc
      rcases List.mem_cons.mp hr with h | h <;> rcases List.mem_cons.mp hr' with h' | h'
      · subst h; subst h'; rfl
      · subst h
        exact absurd hcc.symm (hcne r' h')
      · subst h'
        exact absurd hcc (hcne r h)
      · exact inv.creatorInj r h r' h' hcc
  case ownSlot =>
      intro j id' hown
      by_cases hji : j = i
      · subst hji
        simp only []
        rcases hown with h | ⟨v, e, h⟩
        · rw [hgself] at h
          injection h with h'
          cases h'
          rfl
        · rw [hgself] at h; cases h
      · exact absurd ((ownerish_set_ne s.sts i j id' _ (fun h => hji h.symm)).mp hown)
          (hnoOwner j id')
  case ownRec =>
      intro j id' hown
      by_cases hji : j = i
      · subst hji
        rcases hown with h | ⟨v, e, h⟩
        · rw [hgself] at h
          injection h with h'
          cases h'
          exact ⟨⟨s.nextId, j, none⟩, List.mem_cons_self _ _, rfl, rfl⟩
        · rw [hgself] at h; cases h
      · exact absurd ((ownerish_set_ne s.sts i j id' _ (fun h => hji h.symm)).mp hown)
          (hnoOwner j id')
  case slotOwn =>
      intro id' hs
      simp only [] at hs
      injection hs with hs'
      subst hs'
      exact ⟨i, Or.inl hgself⟩
  case runningIncomplete =>
      intro j id' hj
      by_cases hji : j = i
      · subst hji
        simp only [] at hj
        rw [hgself] at hj
        injection hj with hj'
        cases hj'
        exact ⟨⟨s.nextId, j, none⟩, List.mem_cons_self _ _, rfl, rfl⟩
      · simp only [] at hj
        rw [sts_set_get_ne s.sts i j _ (fun h => hji h.symm)] at hj
        obtain ⟨r, hr, h1, h2⟩ := inv.runningIncomplete j id' hj
        exact ⟨r, List.mem_cons_of_mem _ hr, h1, h2⟩
  case deletingRec =>
      intro j id' v e hj
      by_cases hji : j = i
      · subst hji
        simp only [] at hj
        rw [hgself] at hj
        cases hj
      · simp only [] at hj
        rw [sts_set_get_ne s.sts i j _ (fun h => hji h.symm)] at hj
        obtain ⟨r, hr, h1, h2, h3⟩ := inv.deletingRec j id' v e hj
        exact ⟨r, List.mem_cons_of_mem _ hr, h1, h2, h3⟩
  case waitingRec =>
      intro j id' hj
      by_cases hji : j = i
      · subst hji
        simp only [] at hj
        rw [hgself] at hj
        cases hj
      · simp only [] at hj
        rw [sts_set_get_ne s.sts i j _ (fun h => hji h.symm)] at hj
        obtain ⟨r, hr, h1⟩ := inv.waitingRec j id' hj
        exact ⟨r, List.mem_cons_of_mem _ hr, h1⟩
  case doneRec =>
      intro j v e hj
      by_cases hji : j = i
      · subst hji
        simp only [] at hj
        rw [hgself] at hj
        cases hj
      · simp only [] at hj
        rw [sts_set_get_ne s.sts i j _ (fun h => hji h.symm)] at hj
        obtain ⟨r, hr, h1⟩ := inv.doneRec j v e hj
        exact ⟨r, List.mem_cons_of_mem _ hr, h1⟩
  case invokedNodup => exact inv.invokedNodup
  case invokedRec =>
      intro j hj
      obtain ⟨r, hr, h1, h2⟩ := inv.invokedRec j hj
      exact ⟨r, List.mem_cons_of_mem _ hr, h1, h2⟩
  case recInvoked =>
      intro r hr hres
      rcases List.mem_cons.mp hr with h | h
      · subst h; exact absurd rfl hres
      · exact inv.recInvoked r h hres
  case creatorLt =>
      intro r hr
      simp only [List.length_set]
      rcases List.mem_cons.mp hr with h | h
      · subst h; exact hilt
      · exact inv.creatorLt r h

/-- Invariant preservation: the owner's thunk runs, the record is completed
and `wg.Done` signalled. -/
theorem sfInv_step_run {thunks : List (Nat × Option String)} {s : SFState}
    {i id : Nat} {p : Nat × Option String} (inv : SFInv thunks s)
    (hst : s.sts.get? i = some (CallerSt.running id))
    (hp : thunks.get? i = some p) :
    SFInv thunks
      { s with sts := s.sts.set i (CallerSt.deleting id p.1 p.2),
               recs := setRecResult s.recs id p,
               invoked := i :: s.invoked } := by
  have hgself := sts_set_get_self s.sts i _ (CallerSt.deleting id p.1 p.2) hst
  have hownI : Ownerish s.sts i id := Or.inl hst
  obtain ⟨r0, hr0, hr0id, hr0res⟩ := inv.runningIncomplete i id hst
  obtain ⟨r1, hr1, hr1id, hr1c⟩ := inv.ownRec i id hownI
  have hr01 : r0 = r1 := rec_unique inv hr0 hr1 (hr0id.trans hr1id.symm)
  have hr0c : r0.creator = i := by rw [hr01]; exact hr1c
  -- the unique record with this id
  have huniq : ∀ r ∈ s.recs, r.id = id → r = r0 := by
    intro r hr hid
    exact rec_unique inv hr hr0 (hid.trans hr0id.symm)
  constructor
  case recId =>
      intro r hr
      obtain ⟨r', hr', hid, _, _⟩ := setRecResult_shape s.recs id p r hr
      rw [hid]
      exact inv.recId r' hr'
  case recIdsNodup =>
      simp only [setRecResult_ids]
      exact inv.recIdsNodup
  case recResult =>
      intro r hr q hq
      obtain ⟨r', hr', hid, hcr, hres⟩ := setRecResult_shape s.recs id p r hr
      rcases hres with ⟨hid', hres⟩ | ⟨hid', hres⟩
      · have : r' = r0 := huniq r' hr' hid'
        rw [hcr, this, hr0c]
        rw [hres] at hq
        injection hq with hq'
        rw [← hq']
        exact hp
      · rw [hcr]
        apply inv.recResult r' hr' q
        rw [← hres]
        exact hq
  case creatorNotReady =>
      intro r hr
      obtain ⟨r', hr', _, hcr, _⟩ := setRecResult_shape s.recs id p r hr
      rw [hcr]
      by_cases hci : r'.creator = i
      · rw [hci]
        constructor
        · rw [hgself]; intro hcon; cases hcon
        · intro id' ; rw [hgself]; intro hcon; cases hcon
      · have hold := inv.creatorNotReady r' hr'
        rw [sts_set_get_ne s.sts i r'.creator _ (fun h => hci h.symm)]
        exact hold
  case creatorInj =>
      intro r hr r' hr' hcc
      obtain ⟨q, hq, hid, hcr, _⟩ := setRecResult_shape s.recs id p r hr
      obtain ⟨q', hq', hid', hcr', _⟩ := setRecResult_shape s.recs id p r' hr'
      rw [hid, hid']
      apply inv.creatorInj q hq q' hq'
      rw [← hcr, ← hcr']
      exact hcc
  case ownSlot =>
      intro j id' hown
      by_cases hji : j = i
      · subst hji
        rcases hown with h | ⟨v, e, h⟩
        · rw [hgself] at h; cases h
        · rw [hgself] at h
          injection h with h'
          cases h'
          exact inv.ownSlot j id (Or.inl hst)
      · exact inv.ownSlot j id'
          ((ownerish_set_ne s.sts i j id' _ (fun h => hji h.symm)).mp hown)
  case ownRec =>
      intro j id' hown
      by_cases hji : j = i
      · subst hji
        rcases hown with h | ⟨v, e, h⟩
        · rw [hgself] at h; cases h
        · rw [hgself] at h
          injection h with h'
          cases h'
          refine ⟨{ r0 with result := some p },
            setRecResult_mem_self s.recs id p r0 hr0 hr0id, hr0id, hr0c⟩
      · have hown' := (ownerish_set_ne s.sts i j id' _ (fun h => hji h.symm)).mp hown
        obtain ⟨r, hr, hrid, hrc⟩ := inv.ownRec j id' hown'
        have hne : r.id ≠ id := by
          intro h
          have : r = r0 := huniq r hr h
          rw [this, hr0c] at hrc
          exact hji hrc.symm
        exact ⟨r, setRecResult_mem_other s.recs id p r hr hne, hrid, hrc⟩
  case slotOwn =>
      intro id' hs
      obtain ⟨k, hk⟩ := inv.slotOwn id' hs
      by_cases hki : k = i
      · subst hki
        obtain ⟨_, hidid⟩ := owner_unique inv hk hownI
        subst hidid
        exact ⟨k, Or.inr ⟨p.1, p.2, hgself⟩⟩
      · exact ⟨k, (ownerish_set_ne s.sts i k id' _ (fun h => hki h.symm)).mpr hk⟩
  case runningIncomplete =>
      intro j id' hj
      by_cases hji : j = i
      · subst hji; rw [hgself] at hj; cases hj
      · rw [sts_set_get_ne s.sts i j _ (fun h => hji h.symm)] at hj
        obtain ⟨r, hr, hrid, hres⟩ := inv.runningIncomplete j id' hj
        have hne : r.id ≠ id := by
          intro h
          obtain ⟨hij, _⟩ := owner_unique inv (Or.inl hj : Ownerish s.sts j id') hownI
          · exact hji hij
        · exact ⟨r, setRecResult_mem_other s.recs id p r hr hne, hrid, hres⟩
  case deletingRec =>
      intro j id' v e hj
      by_cases hji : j = i
      · subst hji
        rw [hgself] at hj
        injection hj with hj'
        cases hj'
        refine ⟨{ r0 with result := some p },
          setRecResult_mem_self s.recs id p r0 hr0 hr0id, hr0id, rfl, hr0c⟩
      · rw [sts_set_get_ne s.sts i j _ (fun h => hji h.symm)] at hj
        obtain ⟨r, hr, hrid, hres, hrc⟩ := inv.deletingRec j id' v e hj
        have hne : r.id ≠ id := by
          intro h
          obtain ⟨hij, _⟩ :=
            owner_unique inv (Or.inr ⟨v, e, hj⟩ : Ownerish s.sts j id') hownI
          exact hji hij
        exact ⟨r, setRecResult_mem_other s.recs id p r hr hne, hrid, hres, hrc⟩
  case waitingRec =>
      intro j id' hj
      by_cases hji : j = i
      · subst hji; rw [hgself] at hj; cases hj
      · rw [sts_set_get_ne s.sts i j _ (fun h => hji h.symm)] at hj
        obtain ⟨r, hr, hrid⟩ := inv.waitingRec j id' hj
        by_cases hne : r.id = id
        · exact ⟨{ r with result := some p },
            setRecResult_mem_self s.recs id p r hr hne, hrid⟩
        · exact ⟨r, setRecResult_mem_other s.recs id p r hr hne, hrid⟩
  case doneRec =>
      intro j v e hj
      by_cases hji : j = i
      · subst hji; rw [hgself] at hj; cases hj
      · rw [sts_set_get_ne s.sts i j _ (fun h => hji h.symm)] at hj
        obtain ⟨r, hr, hres⟩ := inv.doneRec j v e hj
        have hne : r.id ≠ id := by
          intro h
          have : r = r0 := huniq r hr h
          rw [this] at hres
          rw [hr0res] at hres
          cases hres
        exact ⟨r, setRecResult_mem_other s.recs id p r hr hne, hres⟩
  case invokedNodup =>
      simp only [List.nodup_cons]
      refine ⟨?_, inv.invokedNodup⟩
      intro hmem
      obtain ⟨r, hr, hrc, hres⟩ := inv.invokedRec i hmem
      have hne : r.id = id := by
        have := inv.creatorInj r hr r0 hr0 (by rw [hrc, hr0c])
        rw [this, hr0id]
      have : r = r0 := huniq r hr hne
      rw [this, hr0res] at hres
      exact hres rfl
  case invokedRec =>
      intro j hj
      rcases List.mem_cons.mp hj with h | h
      · subst h
        refine ⟨{ r0 with result := some p },
          setRecResult_mem_self s.recs id p r0 hr0 hr0id, hr0c, by simp⟩
      · obtain ⟨r, hr, hrc, hres⟩ := inv.invokedRec j h
        by_cases hne : r.id = id
        · have : r = r0 := huniq r hr hne
          rw [this, hr0res] at hres
          exact absurd rfl hres
        · exact ⟨r, setRecResult_mem_other s.recs id p r hr hne, hrc, hres⟩
  case recInvoked =>
      intro r hr hres
      obtain ⟨r', hr', hid, hcr, hcase⟩ := setRecResult_shape s.recs id p r hr
      rcases hcase with ⟨hid', _⟩ | ⟨hid', hres'⟩
      · have : r' = r0 := huniq r' hr' hid'
        rw [hcr, this, hr0c]
        exact List.mem_cons_self _ _
      · rw [hcr]
        apply List.mem_cons_of_mem
        apply inv.recInvoked r' hr'
        rw [← hres']
        exact hres
  case creatorLt =>
      intro r hr
      obtain ⟨r', hr', _, hcr, _⟩ := setRecResult_shape s.recs id p r hr
      simp only [List.length_set]
      rw [hcr]
      exact inv.creatorLt r' hr'

/-- Invariant preservation: the owner deletes the map entry and returns. -/
theorem sfInv_step_delete {thunks : List (Nat × Option String)} {s : SFState}
    {i id : Nat} {v : Nat} {e : Option String} (inv : SFInv thunks s)
    (hst : s.sts.get? i = some (CallerSt.deleting id v e)) :
    SFInv thunks { s with sts := s.sts.set i (CallerSt.done v e), slot := none } := by
  have hgself := sts_set_get_self s.sts i _ (CallerSt.done v e) hst
  have hownI : Ownerish s.sts i id := Or.inr ⟨v, e, hst⟩
  have hnoOther : ∀ j id', j ≠ i → ¬ Ownerish s.sts j id' := by
    intro j id' hji hj
    obtain ⟨hij, _⟩ := owner_unique inv hj hownI
    exact hji hij
  constructor
  case recId => exact inv.recId
  case recIdsNodup => exact inv.recIdsNodup
  case recResult => exact inv.recResult
  case creatorNotReady =>
      intro r hr
      by_cases hci : r.creator = i
      · rw [hci]
        constructor
        · rw [hgself]; intro hcon; cases hcon
        · intro id'; rw [hgself]; intro hcon; cases hcon
      · have hold := inv.creatorNotReady r hr
        rw [sts_set_get_ne s.sts i r.creator _ (fun h => hci h.symm)]
        exact hold
  case creatorInj => exact inv.creatorInj
  case ownSlot =>
      intro j id' hown
      by_cases hji : j = i
      · subst hji
        rcases hown with h | ⟨v', e', h⟩ <;> rw [hgself] at h <;> cases h
      · exact absurd ((ownerish_set_ne s.sts i j id' _ (fun h => hji h.symm)).mp hown)
          (hnoOther j id' hji)
  case ownRec =>
      intro j id' hown
      by_cases hji : j = i
      · subst hji
        rcases hown with h | ⟨v', e', h⟩ <;> rw [hgself] at h <;> cases h
      · exact absurd ((ownerish_set_ne s.sts i j id' _ (fun h => hji h.symm)).mp hown)
          (hnoOther j id' hji)
  case slotOwn =>
      intro id' hs
      simp only [] at hs
      cases hs
  case runningIncomplete =>
      intro j id' hj
      by_cases hji : j = i
      · subst hji; rw [hgself] at hj; cases hj
      · rw [sts_set_get_ne s.sts i j _ (fun h => hji h.symm)] at hj
        exact inv.runningIncomplete j id' hj
  case deletingRec =>
      intro j id' v' e' hj
      by_cases hji : j = i
      · subst hji; rw [hgself] at hj; cases hj
      · rw [sts_set_get_ne s.sts i j _ (fun h => hji h.symm)] at hj
        exact inv.deletingRec j id' v' e' hj
  case waitingRec =>
      intro j id' hj
      by_cases hji : j = i
      · subst hji; rw [hgself] at hj; cases hj
      · rw [sts_set_get_ne s.sts i j _ (fun h => hji h.symm)] at hj
        exact inv.waitingRec j id' hj
  case doneRec =>
      intro j v' e' hj
      by_cases hji : j = i
      · subst hji
        rw [hgself] at hj
        injection hj with hj'
        injection hj'
        subst_vars
        obtain ⟨r, hr, _, hres, _⟩ := inv.deletingRec j id v' e' hst
        exact ⟨r, hr, hres⟩
      · rw [sts_set_get_ne s.sts i j _ (fun h => hji h.symm)] at hj
        exact inv.doneRec j v' e' hj
  case invokedNodup => exact inv.invokedNodup
  case invokedRec => exact inv.invokedRec
  case recInvoked => exact inv.recInvoked
  case creatorLt =>
      intro r hr
      simp only [List.length_set]
      exact inv.creatorLt r hr

/-- Invariant preservation: a waiter wakes up after `wg.Done` and returns the
record's pair. -/
theorem sfInv_step_wake {thunks : List (Nat × Option String)} {s : SFState}
    {i id : Nat} {r : CallRec} {p : Nat × Option String} (inv : SFInv thunks s)
    (hst : s.sts.get? i = some (CallerSt.waiting id))
    (hfr : findRec s.recs id = some r) (hres : r.result = some p) :
    SFInv thunks { s with sts := s.sts.set i (CallerSt.done p.1 p.2) } := by
  have hgself := sts_set_get_self s.sts i _ (CallerSt.done p.1 p.2) hst
  obtain ⟨hrmem, hrid⟩ := findRec_mem s.recs id r hfr
  have hcne : ∀ q ∈ s.recs, q.creator ≠ i := by
    intro q hq h
    exact ((inv.creatorNotReady q hq).2 id) (h ▸ hst)
  constructor
  case recId => exact inv.recId
  case recIdsNodup => exact inv.recIdsNodup
  case recResult => exact inv.recResult
  case creatorNotReady =>
      intro q hq
      have hold := inv.creatorNotReady q hq
      rw [sts_set_get_ne s.sts i q.creator _ (fun h => hcne q hq h.symm)]
      exact hold
  case creatorInj => exact inv.creatorInj
  case ownSlot =>
      intro j id' hown
      by_cases hji : j = i
      · subst hji
        rcases hown with h | ⟨v', e', h⟩ <;> rw [hgself] at h <;> cases h
      · exact inv.ownSlot j id'
          ((ownerish_set_ne s.sts i j id' _ (fun h => hji h.symm)).mp hown)
  case ownRec =>
      intro j id' hown
      by_cases hji : j = i
      · subst hji
        rcases hown with h | ⟨v', e', h⟩ <;> rw [hgself] at h <;> cases h
      · exact inv.ownRec j id'
          ((ownerish_set_ne s.sts i j id' _ (fun h => hji h.symm)).mp hown)
  case slotOwn =>
      intro id' hs
      obtain ⟨k, hk⟩ := inv.slotOwn id' hs
      have hki : k ≠ i := by
        intro h
        subst h
        rcases hk with hcon | ⟨v', e', hcon⟩ <;> rw [hst] at hcon <;> cases hcon
      exact ⟨k, (ownerish_set_ne s.sts i k id' _ (fun h => hki h.symm)).mpr hk⟩
  case runningIncomplete =>
      intro j id' hj
      by_cases hji : j = i
      · subst hji; rw [hgself] at hj; cases hj
      · rw [sts_set_get_ne s.sts i j _ (fun h => hji h.symm)] at hj
        exact inv.runningIncomplete j id' hj
  case deletingRec =>
      intro j id' v' e' hj
      by_cases hji : j = i
      · subst hji; rw [hgself] at hj; cases hj
      · rw [sts_set_get_ne s.sts i j _ (fun h => hji h.symm)] at hj
        exact inv.deletingRec j id' v' e' hj
  case waitingRec =>
      intro j id' hj
      by_cases hji : j = i
      · subst hji; rw [hgself] at hj; cases hj
      · rw [sts_set_get_ne s.sts i j _ (fun h => hji h.symm)] at hj
        exact inv.waitingRec j id' hj
  case doneRec =>
      intro j v' e' hj
      by_cases hji : j = i
      · subst hji
        rw [hgself] at hj
        injection hj with hj'
        injection hj'
        subst_vars
        exact ⟨r, hrmem, by rw [hres]⟩
      · rw [sts_set_get_ne s.sts i j _ (fun h => hji h.symm)] at hj
        exact inv.doneRec j v' e' hj
  case invokedNodup => exact inv.invokedNodup
  case invokedRec => exact inv.invokedRec
  case recInvoked => exact inv.recInvoked
  case creatorLt =>
      intro q hq
      simp only [List.length_set]
      exact inv.creatorLt q hq

/-- Every enabled step preserves the invariant. -/
theorem sfStep_inv {thunks : List (Nat × Option String)} {s s' : SFState}
    {i : Nat} (inv : SFInv thunks s) (hstep : sfStep thunks s i = some s') :
    SFInv thunks s' := by
  unfold sfStep at hstep
  cases hst : s.sts.get? i with
  | none => rw [hst] at hstep; cases hstep
  | some st =>
      rw [hst] at hstep
      have hstep' : sfStepAt thunks s i st = some s' := hstep
      clear hstep
      cases st with
      | ready =>
          simp only [sfStepAt] at hstep'
          cases hslot : s.slot with
          | some id =>
              rw [hslot] at hstep'
              injection hstep' with h
              rw [← h, ← hslot]
              exact sfInv_step_wait inv hst hslot
          | none =>
              rw [hslot] at hstep'
              injection hstep' with h
              rw [← h]
              exact sfInv_step_create inv hst hslot
      | running id =>
          simp only [sfStepAt] at hstep'
          cases hp : thunks.get? i with
          | none => rw [hp] at hstep'; cases hstep'
          | some p =>
              rw [hp] at hstep'
              injection hstep' with h
              rw [← h]
              exact sfInv_step_run inv hst hp
      | deleting id v e =>
          simp only [sfStepAt] at hstep'
          injection hstep' with h
          rw [← h]
          exact sfInv_step_delete inv hst
      | waiting id =>
          simp only [sfStepAt] at hstep'
          cases hbr : (findRec s.recs id).bind CallRec.result with
          | none => rw [hbr] at hstep'; cases hstep'
          | some p =>
              rw [hbr] at hstep'
              injection hstep' with h
              rw [← h]
              obtain ⟨r, hfr, hres⟩ := Option.bind_eq_some.mp hbr
              exact sfInv_step_wake inv hst hfr hres
      | done v e =>
          simp only [sfStepAt] at hstep'
          cases hstep'

/-- Running any schedule preserves the invariant. -/
theorem sfRun_inv {thunks : List (Nat × Option String)} :
    ∀ (sched : List Nat) (s : SFState), SFInv thunks s →
      SFInv thunks (sfRun thunks s sched) := by
  intro sched
  induction sched with
  | nil => intro s h; exact h
  | cons i rest ih =>
      intro s h
      unfold sfRun
      cases hstep : sfStep thunks s i with
      | none => exact ih s h
      | some s' => exact ih s' (sfStep_inv h hstep)

/-- The initial state satisfies the invariant. -/
theorem sfInit_inv (thunks : List (Nat × Option String)) (n : Nat) :
    SFInv thunks (sfInit n) := by
  have hrep : ∀ (j : Nat) (st : CallerSt),
      (List.replicate n CallerSt.ready).get? j = some st → st = CallerSt.ready := by
    intro j st h
    obtain ⟨hlt, hget⟩ := List.get?_eq_some.mp h
    rw [← hget]
    simp [List.get_replicate]
  constructor
  case recId => intro r hr; cases hr
  case recIdsNodup => exact List.nodup_nil
  case recResult => intro r hr; cases hr
  case creatorNotReady => intro r hr; cases hr
  case creatorInj => intro r hr; cases hr
  case ownSlot =>
      intro i id hown
      rcases hown with h | ⟨v, e, h⟩ <;> cases hrep i _ h
  case ownRec =>
      intro i id hown
      rcases hown with h | ⟨v, e, h⟩ <;> cases hrep i _ h
  case slotOwn => intro id h; cases h
  case runningIncomplete => intro i id h; cases hrep i _ h
  case deletingRec => intro i id v e h; cases hrep i _ h
  case waitingRec => intro i id h; cases hrep i _ h
  case doneRec => intro i v e h; cases hrep i _ h
  case invokedNodup => exact List.nodup_nil
  case invokedRec => intro i hi; cases hi
  case recInvoked => intro r hr; cases hr
  case creatorLt => intro r hr; cases hr

theorem sfStep_sts_length {thunks : List (Nat × Option String)}
    {s s' : SFState} {i : Nat} (hstep : sfStep thunks s i = some s') :
    s'.sts.length = s.sts.length := by
  unfold sfStep at hstep
  cases hst : s.sts.get? i with
  | none => rw [hst] at hstep; cases hstep
  | some st =>
      rw [hst] at hstep
      have hstep' : sfStepAt thunks s i st = some s' := hstep
      clear hstep
      cases st with
      | ready =>
          simp only [sfStepAt] at hstep'
          cases hslot : s.slot with
          | some id =>
              rw [hslot] at hstep'
              injection hstep' with h
              rw [← h]
              simp
          | none =>
              rw [hslot] at hstep'
              injection hstep' with h
              rw [← h]
              simp
      | running id =>
          simp only [sfStepAt] at hstep'
          cases hp : thunks.get? i with
          | none => rw [hp] at hstep'; cases hstep'
          | some p =>
              rw [hp] at hstep'
              injection hstep' with h
              rw [← h]
              simp
      | deleting id v e =>
          simp only [sfStepAt] at hstep'
          injection hstep' with h
          rw [← h]
          simp
      | waiting id =>
          simp only [sfStepAt] at hstep'
          cases hbr : (findRec s.recs id).bind CallRec.result with
          | none => rw [hbr] at hstep'; cases hstep'
          | some p =>
              rw [hbr] at hstep'
              injection hstep' with h
              rw [← h]
              simp
      | done v e =>
          simp only [sfStepAt] at hstep'
          cases hstep'

theorem sfRun_sts_length (thunks : List (Nat × Option String)) :
    ∀ (sched : List Nat) (s : SFState),
      (sfRun thunks s sched).sts.length = s.sts.length := by
  intro sched
  induction sched with
  | nil => intro s; rfl
  | cons i rest ih =>
      intro s
      unfold sfRun
      cases hstep : sfStep thunks s i with
      | none => exact ih s
      | some s' =>
          show (sfRun thunks s' rest).sts.length = s.sts.length
          rw [ih s', sfStep_sts_length hstep]

theorem nodup_all_eq_singleton {l : List Nat} {w : Nat} (hnodup : l.Nodup)
    (hall : ∀ x ∈ l, x = w) (hw : w ∈ l) : l = [w] := by
  cases l with
  | nil => cases hw
  | cons a t =>
      have ha : a = w := hall a (List.mem_cons_self a t)
      subst ha
      cases t with
      | nil => rfl
      | cons b t' =>
          have hb : b = a := hall b (by simp)
          subst hb
          simp [List.nodup_cons] at hnodup

/-! ### Claim theorem for the single-flight coalescer -/

/-- C2: single-flight coalescing.  For any execution of `N` callers from the
initial state in which exactly one record was ever created (`nextId = 1` at
the end — the formal rendering of the `N` `Do(key, …)` calls being
concurrent: every non-winning caller performed its map lookup while the
winner's record was published) and in which every caller has returned:
exactly one thunk was invoked (the ghost trace `invoked` is the singleton of
the winner), every one of the `N` callers received precisely that thunk's
`(val, err)` pair, and the per-key map entry has been removed.  Moreover —
last conjunct, for arbitrary states — once the slot is empty a ready
caller's next step publishes a fresh record and becomes the runner of its
own thunk, so a later `Do` runs afresh. -/
theorem sfDo_coalesces (thunks : List (Nat × Option String)) (n : Nat)
    (sched : List Nat) (hn : 0 < n)
    (hone : (sfRun thunks (sfInit n) sched).nextId = 1)
    (hdone : ∀ i, i < n → ∃ v e,
      (sfRun thunks (sfInit n) sched).sts.get? i = some (CallerSt.done v e)) :
    ∃ w p, w < n ∧ thunks.get? w = some p ∧
      (sfRun thunks (sfInit n) sched).invoked = [w] ∧
      (∀ i, i < n → (sfRun thunks (sfInit n) sched).sts.get? i =
        some (CallerSt.done p.1 p.2)) ∧
      (sfRun thunks (sfInit n) sched).slot = none ∧
      (∀ (thunks' : List (Nat × Option String)) (s' : SFState) (j : Nat),
        s'.slot = none → s'.sts.get? j = some CallerSt.ready →
        ∃ s'', sfStep thunks' s' j = some s'' ∧
          s''.sts.get? j = some (CallerSt.running s'.nextId) ∧
          s''.slot = some s'.nextId ∧
          (⟨s'.nextId, j, none⟩ : CallRec) ∈ s''.recs) := by
  have inv := sfRun_inv sched (sfInit n) (sfInit_inv thunks n)
  set s := sfRun thunks (sfInit n) sched with hs
  have hlen : s.sts.length = n := by
    rw [hs, sfRun_sts_length]
    simp [sfInit]
  obtain ⟨v0, e0, h0⟩ := hdone 0 hn
  obtain ⟨r0, hr0mem, hr0res⟩ := inv.doneRec 0 v0 e0 h0
  have huniq : ∀ r ∈ s.recs, r = r0 := by
    intro r hr
    apply rec_unique inv hr hr0mem
    have h1 := inv.recId r hr
    have h2 := inv.recId r0 hr0mem
    omega
  have hw : r0.creator < n := by
    have := inv.creatorLt r0 hr0mem
    rw [hlen] at this
    exact this
  refine ⟨r0.creator, (v0, e0), hw, inv.recResult r0 hr0mem _ hr0res, ?_, ?_, ?_, ?_⟩
  · apply nodup_all_eq_singleton inv.invokedNodup
    · intro x hx
      obtain ⟨r, hr, hrc, _⟩ := inv.invokedRec x hx
      rw [← hrc, huniq r hr]
    · apply inv.recInvoked r0 hr0mem
      rw [hr0res]
      simp
  · intro i hi
    obtain ⟨v, e, h⟩ := hdone i hi
    obtain ⟨r, hr, hres⟩ := inv.doneRec i v e h
    have hrr0 : r = r0 := huniq r hr
    rw [hrr0, hr0res] at hres
    injection hres with hres'
    injection hres' with h1 h2
    rw [h, h1, h2]
  · cases hslot : s.slot with
    | none => rfl
    | some id =>
        exfalso
        obtain ⟨k, hk⟩ := inv.slotOwn id hslot
        rcases hk with hkr | ⟨v, e, hkr⟩
        · have hk1 := (List.get?_eq_some.mp hkr).1
          have hklt : k < n := by omega
          obtain ⟨v', e', h'⟩ := hdone k hklt
          rw [h'] at hkr
          injection hkr with hh
          cases hh
        · have hk1 := (List.get?_eq_some.mp hkr).1
          have hklt : k < n := by omega
          obtain ⟨v', e', h'⟩ := hdone k hklt
          rw [h'] at hkr
          injection hkr with hh
          cases hh
  · intro thunks' s' j hslot' hready
    have hstep : sfStep thunks' s' j = some { s' with
        sts := s'.sts.set j (CallerSt.running s'.nextId),
        slot := some s'.nextId,
        recs := ⟨s'.nextId, j, none⟩ :: s'.recs,
        nextId := s'.nextId + 1 } := by
      unfold sfStep
      rw [hready]
      show sfStepAt thunks' s' j CallerSt.ready = _
      simp only [sfStepAt]
      rw [hslot']
    refine ⟨_, hstep, ?_, rfl, List.mem_cons_self _ _⟩
    exact sts_set_get_self s'.sts j CallerSt.ready _ hready

/-- C2 witness input: three callers, caller 0 creates the record and runs
its thunk, callers 1 and 2 find the record, wait and read its result. -/
theorem sfDo_coalesces_witness :
    (0 < 3 ∧ sfW.nextId = 1 ∧
      (∀ i, i < 3 → ∃ v e, sfW.sts.get? i = some (CallerSt.done v e))) ∧
    ∃ w p, w < 3 ∧ [(5, none), (6, none), (7, none)].get? w = some p ∧
      sfW.invoked = [w] ∧
      (∀ i, i < 3 → sfW.sts.get? i = some (CallerSt.done p.1 p.2)) ∧
      sfW.slot = none ∧
      (∀ (thunks' : List (Nat × Option String)) (s' : SFState) (j : Nat),
        s'.slot = none → s'.sts.get? j = some CallerSt.ready →
        ∃ s'', sfStep thunks' s' j = some s'' ∧
          s''.sts.get? j = some (CallerSt.running s'.nextId) ∧
          s''.slot = some s'.nextId ∧
          (⟨s'.nextId, j, none⟩ : CallRec) ∈ s''.recs) :=
  ⟨⟨by decide, by decide,
    by intro i hi; interval_cases i <;> exact ⟨5, none, by decide⟩⟩,
   sfDo_coalesces [(5, none), (6, none), (7, none)] 3 [0, 1, 2, 0, 0, 1, 2]
     (by decide) (by decide)
     (by intro i hi; interval_cases i <;> exact ⟨5, none, by decide⟩)⟩

end GoCache
